import Mathlib

/-!
Verification of the name-reconciliation engine of the sfc repository
(`src/calibrator.py` and `src/sfcfactory.py`).

Strings are modelled as `List Char`; Python dicts as insertion-ordered
association lists (`PyDict`), with `dictSet` reproducing Python's
"update in place, else append" assignment semantics.  Fallible Python
code (operations that can raise) is modelled in `Option`/`Except`:
a `none` / `.error` result marks exactly the places where the Python
code raises an exception.
-/

/-- Parameter names are strings, modelled as lists of characters. -/
abbrev Name := List Char

/-- A Python dict with `Name` keys: an insertion-ordered association list. -/
abbrev PyDict (β : Type) := List (Name × β)

/-- Python `d[k] = v`: replace the value of an existing key in place,
otherwise append the new binding at the end (insertion order). -/
def dictSet {β : Type} : PyDict β → Name → β → PyDict β
  | [], k, v => [(k, v)]
  | (k', v') :: d, k, v => if k' = k then (k', v) :: d else (k', v') :: dictSet d k v

/-- Python `d[k]` / `d.get(k)`: value at the first matching key. -/
def dlookup {β : Type} (d : PyDict β) (k : Name) : Option β :=
  (d.find? (fun p => decide (p.1 = k))).map (·.2)

/-- Python `d.values()`. -/
def dictValues {β : Type} (d : PyDict β) : List β := d.map (·.2)

/-- Python `d.keys()`. -/
def dictKeys {β : Type} (d : PyDict β) : List Name := d.map (·.1)

/-- Python `del d[k]` / `d.pop(k)` (key removal, preserving order). -/
def dictDel {β : Type} (d : PyDict β) (k : Name) : PyDict β :=
  d.filter (fun p => decide (p.1 ≠ k))

/-- A dict comprehension `{n: f(n) for n in ks}`: later duplicate keys
overwrite, first-insertion order is kept. -/
def dictOfList {β : Type} (f : Name → β) (ks : List Name) : PyDict β :=
  ks.foldl (fun d n => dictSet d n (f n)) []

/-- Python `str.upper()` (ASCII names only are used by the repository). -/
def upperN (s : Name) : Name := s.map Char.toUpper

/-!  ## difflib.SequenceMatcher

`Calibrator._get_best_shot` scores strings with
`SequenceMatcher(None, word, opt).ratio()`.  `ratio` is `2*M/T` where `T`
is the total length and `M` the total size of the matching blocks found
by the Ratcliff/Obershelp recursion: repeatedly take the longest common
block (ties: least start index in `a`, then least start index in `b`,
which is what difflib's strict-improvement scan over ascending indices
produces) and recurse on both sides.  Scores are modelled as exact
rationals.  No junk heuristic applies (`None` junk, short strings). -/

/-- Length of the longest common prefix of two strings. -/
def commonPrefixLen : List Char → List Char → Nat
  | a :: as, b :: bs => if a = b then commonPrefixLen as bs + 1 else 0
  | _, _ => 0

/-- `find_longest_match` over the whole strings: the triple
`(i, j, size)` of the longest matching block, preferring the smallest
`i`, then the smallest `j` (difflib's tie-break). -/
def flmBest (a b : List Char) : Nat × Nat × Nat :=
  (List.range a.length).foldl (fun best i =>
    (List.range b.length).foldl (fun best j =>
      if best.2.2 < commonPrefixLen (a.drop i) (b.drop j)
      then (i, j, commonPrefixLen (a.drop i) (b.drop j)) else best) best) (0, 0, 0)

/-- A `foldl` preserves any invariant its steps preserve. -/
theorem foldl_preserve {α β : Type} (P : α → Prop) (f : α → β → α) (l : List β)
    (init : α) (h0 : P init) (hstep : ∀ x acc, x ∈ l → P acc → P (f acc x)) :
    P (l.foldl f init) := by
  induction l generalizing init with
  | nil => exact h0
  | cons x t ih =>
      exact ih (f init x) (hstep x init (by simp) h0)
        (fun y acc hy hacc => hstep y acc (by simp [hy]) hacc)

theorem flmBest_bound (a b : List Char) :
    (flmBest a b).2.2 = 0 ∨ ((flmBest a b).1 < a.length ∧ 0 < (flmBest a b).2.2) := by
  unfold flmBest
  refine foldl_preserve (fun t : Nat × Nat × Nat => t.2.2 = 0 ∨ (t.1 < a.length ∧ 0 < t.2.2))
    _ _ _ (Or.inl rfl) ?_
  intro i best hi hbest
  refine foldl_preserve (fun t : Nat × Nat × Nat => t.2.2 = 0 ∨ (t.1 < a.length ∧ 0 < t.2.2))
    _ _ _ hbest ?_
  intro j acc _ hacc
  dsimp only
  split
  next hlt => exact Or.inr ⟨List.mem_range.mp hi, Nat.lt_of_le_of_lt (Nat.zero_le _) hlt⟩
  next => exact hacc

/-- Total matched size `M` of the matching blocks, with a structural
fuel argument so that the definition computes by kernel reduction.  The
fuel is irrelevant as long as it exceeds `a.length`
(`matchTotalF_congr`), and `matchTotal` below satisfies the intended
Ratcliff/Obershelp recurrence (`matchTotal_eq`). -/
def matchTotalF : Nat → List Char → List Char → Nat
  | 0, _, _ => 0
  | fuel + 1, a, b =>
    let t := flmBest a b
    if t.2.2 = 0 then 0
    else matchTotalF fuel (a.take t.1) (b.take t.2.1) + t.2.2 +
      matchTotalF fuel (a.drop (t.1 + t.2.2)) (b.drop (t.2.1 + t.2.2))

/-- Total matched size `M` of the matching blocks (difflib's
`get_matching_blocks` recursion). -/
def matchTotal (a b : List Char) : Nat := matchTotalF a.length a b

theorem matchTotalF_congr :
    ∀ f1 f2 (a b : List Char), a.length ≤ f1 → a.length ≤ f2 →
      matchTotalF f1 a b = matchTotalF f2 a b := by
  intro f1
  induction f1 with
  | zero =>
      intro f2 a b h1 _
      have ha : a = [] := List.length_eq_zero.mp (Nat.le_zero.mp h1)
      subst ha
      cases f2 with
      | zero => rfl
      | succ g =>
          have hk : (flmBest [] b).2.2 = 0 := by
            rcases flmBest_bound [] b with h | ⟨hlt, _⟩
            · exact h
            · simp at hlt
          simp [matchTotalF, hk]
  | succ g ih =>
      intro f2 a b h1 h2
      cases f2 with
      | zero =>
          have ha : a = [] := List.length_eq_zero.mp (Nat.le_zero.mp h2)
          subst ha
          have hk : (flmBest [] b).2.2 = 0 := by
            rcases flmBest_bound [] b with h | ⟨hlt, _⟩
            · exact h
            · simp at hlt
          simp [matchTotalF, hk]
      | succ h =>
          simp only [matchTotalF]
          rcases flmBest_bound a b with hk | ⟨hlt, hpos⟩
          · simp [hk]
          · have hk' : ¬ (flmBest a b).2.2 = 0 := by omega
            simp only [hk', if_false]
            have hta : (a.take (flmBest a b).1).length ≤ g := by
              simp only [List.length_take]; omega
            have hta' : (a.take (flmBest a b).1).length ≤ h := by
              simp only [List.length_take]; omega
            have hda : (a.drop ((flmBest a b).1 + (flmBest a b).2.2)).length ≤ g := by
              simp only [List.length_drop]; omega
            have hda' : (a.drop ((flmBest a b).1 + (flmBest a b).2.2)).length ≤ h := by
              simp only [List.length_drop]; omega
            rw [ih h _ _ hta hta', ih h _ _ hda hda']

/-- `matchTotal` satisfies the Ratcliff/Obershelp recurrence: take the
longest matching block, recurse on the pieces to its left and right. -/
theorem matchTotal_eq (a b : List Char) :
    matchTotal a b =
      (if (flmBest a b).2.2 = 0 then 0
       else matchTotal (a.take (flmBest a b).1) (b.take (flmBest a b).2.1) +
         (flmBest a b).2.2 +
         matchTotal (a.drop ((flmBest a b).1 + (flmBest a b).2.2))
           (b.drop ((flmBest a b).2.1 + (flmBest a b).2.2))) := by
  rcases flmBest_bound a b with hk | ⟨hlt, hpos⟩
  · cases ha : a.length with
    | zero => simp [matchTotal, ha, matchTotalF, hk]
    | succ n => simp [matchTotal, ha, matchTotalF, hk]
  · have hk' : ¬ (flmBest a b).2.2 = 0 := by omega
    cases ha : a.length with
    | zero => omega
    | succ n =>
        simp only [matchTotal, ha, matchTotalF, hk', if_false]
        rw [matchTotalF_congr (a.take (flmBest a b).1).length n _ _ (le_refl _)
            (by simp only [List.length_take]; omega),
          matchTotalF_congr (a.drop ((flmBest a b).1 + (flmBest a b).2.2)).length n _ _
            (le_refl _) (by simp only [List.length_drop]; omega)]

/-- Similarity scores: exact nonnegative fractions `numerator/denominator`
with a positive denominator, compared by cross-multiplication.  Python
compares the float values `2*M/T`; for the small integers produced here
float comparison coincides with exact rational comparison, which is what
`fracLe`/`fracLt`/`fracEq` implement. -/
abbrev Frac := Nat × Nat

/-- Value order `x ≤ y` on score fractions. -/
def fracLe (x y : Frac) : Bool := decide (x.1 * y.2 ≤ y.1 * x.2)

/-- Strict value order `x < y` on score fractions. -/
def fracLt (x y : Frac) : Bool := decide (x.1 * y.2 < y.1 * x.2)

/-- Value equality `x = y` on score fractions. -/
abbrev fracEq (x y : Frac) : Prop := x.1 * y.2 = y.1 * x.2

/-- `SequenceMatcher(None, a, b).ratio()` as an exact fraction
`2*M / T`, and `1` when both strings are empty. -/
def ratioOf (a b : List Char) : Frac :=
  if a.length + b.length = 0 then (1, 1)
  else (2 * matchTotal a b, a.length + b.length)

/-- Python's builtin `max` over a list of float scores: scan left to
right, replacing the current maximum only on a strict increase (so the
first maximal value is kept); raises (`none`) on an empty list. -/
def pyMax : List Frac → Option Frac
  | [] => none
  | x :: xs => some (xs.foldl (fun m y => if fracLt m y then y else m) x)

/-!  ## Calibrator (`src/calibrator.py`) -/

/-- `Calibrator._get_spellings(base)`: `base[:i]` for
`i in range(len(base), 0, -1)` — every nonempty prefix, longest first. -/
def getSpellings (base : Name) : List Name :=
  (List.range base.length).map (fun k => base.take (base.length - k))

/-- `Calibrator._get_best_shot(word, opts)`: the highest similarity
ratio of any string in `opts` against `word`, both uppercased.
`none` models the `ValueError` that Python's `max` raises on an empty
`opts`. -/
def getBestShot (word : Name) (opts : List Name) : Option Frac :=
  pyMax (opts.map (fun opt => ratioOf (upperN word) (upperN opt)))

/-- Phase 1 inner loop of `calibrate_args`: the first expected name (in
dict iteration order) one of whose uppercased spellings equals the
uppercased actual name; `break` on the first hit. -/
def findFirstMatch (spell : PyDict (List Name)) (arg : Name) : Option Name :=
  (spell.find? (fun p => decide (upperN arg ∈ p.2.map upperN))).map (·.1)

/-- Phase 1 of `calibrate_args` (lines 53-61): for each actual name in
input order, bind it (`key[name] = arg`) to the first spelling-matching
expected name.  The source performs no already-assigned check: the
assignment overwrites any earlier binding of that expected name. -/
def phase1 (spell : PyDict (List Name)) (key : PyDict Name) (actual : List Name) :
    PyDict Name :=
  actual.foldl (fun key arg =>
    match findFirstMatch spell arg with
    | some name => dictSet key name arg
    | none => key) key

/-- `unused_args = [arg for arg in actual if arg not in key.values()]`. -/
def unusedArgs (actual : List Name) (key : PyDict Name) : List Name :=
  actual.filter (fun arg => decide (arg ∉ dictValues key))

/-- One insertion step of Python's stable descending sort
(`sorted(..., key=lambda x: x[1], reverse=True)`): place `x` before the
first element whose score is `≤` its own, so that earlier elements win
ties. -/
def insertDesc (x : Name × Frac) : List (Name × Frac) → List (Name × Frac)
  | [] => [x]
  | y :: l => if fracLe y.2 x.2 then x :: y :: l else y :: insertDesc x l

/-- Python's `sorted(sims.items(), key=lambda x: x[1], reverse=True)`:
a stable sort, descending by score.  (A stable sort's output is unique,
so this insertion sort reproduces it exactly.) -/
def sortDesc : List (Name × Frac) → List (Name × Frac)
  | [] => []
  | x :: l => insertDesc x (sortDesc l)

/-- Phase 2 body of `calibrate_args` for one unused actual name
(lines 69-76): score it against every expected name's spellings, sort
stably by descending score, and assign it to the first expected name
whose entry is still empty (`if not key[name]`).  `none` models the
`ValueError` raised by `_get_best_shot` on an empty spelling list.
(The scanned names are exactly the keys of `key` by construction, so a
missing key cannot occur.) -/
def phase2Step (spell : PyDict (List Name)) (key : PyDict Name) (arg : Name) :
    Option (PyDict Name) := do
  let sims ← spell.mapM (fun p => (getBestShot arg p.2).map (fun r => (p.1, r)))
  match (sortDesc sims).find? (fun p => decide (dlookup key p.1 = some [])) with
  | some p => pure (dictSet key p.1 arg)
  | none => pure key

/-- `Calibrator.calibrate_args(actual, expected)` (lines 39-78).
`none` marks the inputs on which the Python code raises. -/
def calibrate_args (actual expected : List Name) : Option (PyDict Name) :=
  let key := dictOfList (fun _ => ([] : Name)) expected
  let spell := dictOfList getSpellings expected
  let key1 := phase1 spell key actual
  (unusedArgs actual key1).foldlM (phase2Step spell) key1

/-- `Calibrator.calibrate_fn(fn, expected)` (lines 81-92): calibrate the
declared argument names of `fn` (as reported by
`inspect.getfullargspec`) against the expected names. -/
def calibrate_fn (declaredArgs : List Name) (expected : List Name) :
    Option (PyDict Name) :=
  calibrate_args declaredArgs expected

example : calibrate_args ["a".data] ["a".data] = some [("a".data, "a".data)] := by
  decide

example : calibrate_args ["ab".data, "a".data] ["ab".data, "a".data]
    = some [("ab".data, "a".data), ("a".data, "ab".data)] := by decide

/-!  ## SFCFactory (`src/sfcfactory.py`)

The dispatch adapter is modelled with explicit data where Python uses
runtime reflection: a target's declared parameter names are passed as a
list (what `inspect.getfullargspec` returns), and Python exceptions are
values of `PyErr` in an `Except` result.  The reserved constant
`STYPE_ARG` carries a random digit suffix at import time, so it is a
parameter (`stypeArg`) of the definitions below, as is `SSELF_ARG`
(`sselfArg`). -/

deriving instance DecidableEq for Except

/-- The Python exceptions this code can raise or catch. -/
inductive PyErr : Type where
  | typeError
  | keyError
  | valueError
deriving DecidableEq

/-- Values flowing through keyword arguments: ordinary data, or the
reference to the student type that `make` smuggles under `STYPE_ARG`. -/
inductive Val (α : Type) : Type where
  | data (a : α)
  | tyref
deriving DecidableEq

/-- `'self'`, the conventional first parameter name of instance methods. -/
def selfName : Name := "self".data

/-- A student class: its name as it appears inside `str(type)`, the
declared parameter names of its `__init__` after `self`, and the body of
the initializer (which builds an `α` or raises). -/
structure Stype (α : Type) : Type where
  qualname : Name
  params : List Name
  body : PyDict (Val α) → Except PyErr α

/-- Python call binding of a keyword set against declared parameter
names (no defaults): every supplied keyword must be a declared
parameter, and every declared parameter must be supplied; otherwise the
call raises `TypeError`. -/
def bindOk (params ks : List Name) : Bool :=
  ks.all (fun k => decide (k ∈ params)) && params.all (fun p => decide (p ∈ ks))

/-- A module-level student function as a callable: bind the keyword set
against the declared parameter names, then run the body
(`TypeError` on a parameter-binding failure). -/
def funcTarget {α β : Type} (declared : List Name) (body : PyDict (Val α) → Except PyErr β) :
    PyDict (Val α) → Except PyErr β := fun kw =>
  if bindOk declared (dictKeys kw) then body kw else .error .typeError

/-- The body of the keyword-resolution loop of
`StudentFunctionCaller.call` (lines 166-169): look the supplied keyword
up in the inverted tester correspondence, then look the resulting
canonical name up in the student correspondence (each missing key is a
Python `KeyError`), and store the value under the student's name. -/
def resolveStep {α : Type} (tester_names student_names : PyDict Name)
    (acc : PyDict (Val α)) (p : Name × Val α) : Except PyErr (PyDict (Val α)) :=
  match dlookup tester_names p.1 with
  | none => Except.error PyErr.keyError
  | some tn =>
    match dlookup student_names tn with
    | none => Except.error PyErr.keyError
    | some sn => Except.ok (dictSet acc sn p.2)

/-- `StudentFunctionCaller.call` (lines 136-178).  Inputs: the reserved
self name, the required and possible canonical names, the declared
parameter names of the inspected target (`self.sfn_inspect or
self.sfn`), the callable `sfn`, and the caller's keyword arguments.
Mirrors the source step by step: replace the reserved self arg, compute
`student_names` and `tester_names` via the calibrator, invert
`tester_names`, resolve every supplied keyword through both
correspondences (a missing key raises `KeyError`), inject defaults for
matched possible names, and invoke. -/
def sfcCall {α β : Type} (sselfArg : Name) (required : List Name)
    (possible : PyDict (Val α)) (inspectArgs : List Name)
    (sfn : PyDict (Val α) → Except PyErr β) (kwargs : PyDict (Val α)) :
    Except PyErr β :=
  let kwargs := match dlookup kwargs sselfArg with
    | some sobj => dictSet (dictDel kwargs sselfArg) selfName sobj
    | none => kwargs
  let all_params := required ++ dictKeys possible
  match calibrate_fn inspectArgs all_params with
  | none => .error .valueError
  | some student_names =>
    match calibrate_args (dictKeys kwargs) required with
    | none => .error .valueError
    | some tester0 =>
      let tester_names := tester0.foldl (fun d p => dictSet d p.2 p.1) []
      match kwargs.foldlM (resolveStep tester_names student_names) ([] : PyDict (Val α)) with
      | .error e => .error e
      | .ok sk0 =>
        let student_kwargs := possible.foldl (fun acc p =>
          match dlookup student_names p.1 with
          | some sn => if sn ≠ [] then dictSet acc sn p.2 else acc
          | none => acc) sk0
        sfn student_kwargs

/-- `StudentMethodCaller.__init__` (lines 190-197): append `'self'` to
the (shared, mutable) required list if it is not already present. -/
def smcInitRequired (required : List Name) : List Name :=
  if selfName ∈ required then required else required ++ [selfName]

/-- `StudentObjectMaker.__init__`, effect on the required list
(line 248): unconditionally append the reserved type argument to the
(shared, mutable) required list. -/
def somInitRequired (required : List Name) (stypeArg : Name) : List Name :=
  required ++ [stypeArg]

/-- `StudentObjectMaker._get_instantiator` (lines 251-263): pop the
value bound to `'self'` (the smuggled student type; `KeyError` if it is
missing, `TypeError` if what arrived there is not callable) and invoke
the student type on the remaining keywords. -/
def insFn {α : Type} (st : Stype α) : PyDict (Val α) → Except PyErr α := fun kw =>
  match dlookup kw selfName with
  | none => .error .keyError
  | some (.data _) => .error .typeError
  | some .tyref =>
    let rest := dictDel kw selfName
    if bindOk st.params (dictKeys rest) then st.body rest else .error .typeError

/-- `str(self.stype)` as CPython renders a class object. -/
def typeStr {α : Type} (st : Stype α) : Name :=
  "<class '".data ++ st.qualname ++ "'>".data

/-- Python `str.rfind` scanning down from index `i`. -/
def rfindFrom (hay needle : Name) : Nat → Int
  | 0 => if needle.isPrefixOf hay then 0 else -1
  | i + 1 => if needle.isPrefixOf (hay.drop (i + 1)) then ((i + 1 : Nat) : Int)
      else rfindFrom hay needle i

/-- Python `hay.rfind(needle)`: highest index at which `needle` occurs,
`-1` if it does not. -/
def pyRFind (hay needle : Name) : Int := rfindFrom hay needle hay.length

/-- Python slice `l[s:e]` (negative indices count from the end). -/
def pySlice (l : Name) (s e : Int) : Name :=
  let n : Int := l.length
  let s' := if s < 0 then max (n + s) 0 else min s n
  let e' := if e < 0 then max (n + e) 0 else min e n
  (l.take e'.toNat).drop s'.toNat

/-- Name extraction in `_get_uninstantiated_object` (lines 273-277):
`typestr[typestr.rfind("class '") + 7 : typestr.rfind("'")]`. -/
def extractName (typestr : Name) : Name :=
  pySlice typestr (pyRFind typestr "class '".data + 7) (pyRFind typestr "'".data)

/-- The `Uninstantiated` stand-in object (lines 305-324): it carries the
extracted type name and nothing else, and is its own marker type. -/
structure Uninst : Type where
  name : Name
deriving DecidableEq

/-- `Uninstantiated.__repr__` (lines 319-324):
`'<Failure to instantiate {} due to unexpected parameters>'.format(name)`. -/
def uninstRepr (u : Uninst) : Name :=
  "<Failure to instantiate ".data ++ u.name ++ " due to unexpected parameters>".data

/-- `StudentObjectMaker._get_uninstantiated_object` (lines 266-283). -/
def mkUninst {α : Type} (st : Stype α) : Uninst :=
  ⟨extractName (typeStr st)⟩

/-- Result of `make`: a genuine student object, or the Uninstantiated
placeholder — distinguishable by constructor (the marker type). -/
inductive MakeRes (α : Type) : Type where
  | obj (a : α)
  | uninst (u : Uninst)
deriving DecidableEq

/-- `StudentObjectMaker.make` (lines 286-302): smuggle the student type
under the reserved `stypeArg` keyword, run the inherited `call` with the
instantiator as target (inspecting the real `__init__`, whose declared
names start with `self`), and catch exactly `TypeError`, substituting
the uninstantiated placeholder; any other exception propagates.
`required` is the adapter's required list as it stands after
`__init__` ran (i.e. with `stypeArg` appended). -/
def somMake {α : Type} (sselfArg stypeArg : Name) (st : Stype α)
    (required : List Name) (possible : PyDict (Val α)) (kwargs : PyDict (Val α)) :
    Except PyErr (MakeRes α) :=
  let kwargs := dictSet kwargs stypeArg Val.tyref
  match sfcCall sselfArg required possible (selfName :: st.params) (insFn st) kwargs with
  | .error .typeError => .ok (.uninst (mkUninst st))
  | .error e => .error e
  | .ok a => .ok (.obj a)

/-!  ## Dictionary lemmas -/

theorem dlookup_nil {β : Type} (k : Name) : dlookup ([] : PyDict β) k = none := rfl

theorem dlookup_cons {β : Type} (p : Name × β) (d : PyDict β) (k : Name) :
    dlookup (p :: d) k = if p.1 = k then some p.2 else dlookup d k := by
  by_cases h : p.1 = k <;> simp [dlookup, List.find?_cons, h]

theorem dlookup_dictSet {β : Type} (d : PyDict β) (k : Name) (v : β) (k' : Name) :
    dlookup (dictSet d k v) k' = if k' = k then some v else dlookup d k' := by
  induction d with
  | nil => by_cases h : k' = k <;> simp [dictSet, dlookup_cons, dlookup_nil, h, Ne.symm]
  | cons p d ih =>
      simp only [dictSet]
      by_cases h1 : p.1 = k
      · by_cases h2 : k' = k <;>
          simp [dlookup_cons, h1, h2, Ne.symm]
      · rw [if_neg h1, dlookup_cons, dlookup_cons, ih]
        by_cases h2 : p.1 = k'
        · have : ¬ k' = k := fun hc => h1 (h2.trans hc)
          simp [h2, this]
        · simp [h2]

theorem mem_dictSet {β : Type} (d : PyDict β) (k : Name) (v : β) (p : Name × β) :
    p ∈ dictSet d k v → p = (k, v) ∨ p ∈ d := by
  induction d with
  | nil =>
      intro hp
      simp only [dictSet] at hp
      exact Or.inl (List.mem_singleton.mp hp)
  | cons q d ih =>
      simp only [dictSet]
      by_cases h1 : q.1 = k
      · rw [if_pos h1]
        intro hp
        rcases List.mem_cons.mp hp with h | h
        · left; rw [h, h1]
        · right; exact List.mem_cons_of_mem _ h
      · rw [if_neg h1]
        intro hp
        rcases List.mem_cons.mp hp with h | h
        · right; exact h ▸ List.mem_cons_self _ _
        · rcases ih h with h' | h'
          · exact Or.inl h'
          · exact Or.inr (List.mem_cons_of_mem _ h')

theorem dlookup_mem {β : Type} (d : PyDict β) (k : Name) (v : β) :
    dlookup d k = some v → (k, v) ∈ d := by
  induction d with
  | nil => simp [dlookup_nil]
  | cons p d ih =>
      rw [dlookup_cons]
      by_cases h : p.1 = k
      · rw [if_pos h]
        intro hv
        have hv' : p.2 = v := by injection hv
        have hp : p = (k, v) := by
          cases p
          simp_all
        rw [← hp]
        exact List.mem_cons_self _ _
      · rw [if_neg h]
        intro hv
        exact List.mem_cons_of_mem _ (ih hv)

theorem self_mem_values_dictSet {β : Type} (d : PyDict β) (k : Name) (v : β) :
    v ∈ dictValues (dictSet d k v) := by
  induction d with
  | nil =>
      simp only [dictSet, dictValues, List.map_cons, List.map_nil]
      exact List.mem_cons_self _ _
  | cons p d ih =>
      simp only [dictSet]
      by_cases h : p.1 = k
      · rw [if_pos h]
        simp only [dictValues, List.map_cons]
        exact List.mem_cons_self _ _
      · rw [if_neg h]
        simp only [dictValues, List.map_cons]
        exact List.mem_cons_of_mem _ ih

theorem mem_values_dictSet {β : Type} (d : PyDict β) (k : Name) (v w : β) :
    w ∈ dictValues (dictSet d k v) → w = v ∨ w ∈ dictValues d := by
  intro hw
  rcases List.mem_map.mp hw with ⟨p, hp, hpv⟩
  rcases mem_dictSet d k v p hp with h | h
  · left; rw [← hpv, h]
  · right; exact hpv ▸ List.mem_map_of_mem _ h

theorem dictValues_cons {β : Type} (p : Name × β) (d : PyDict β) :
    dictValues (p :: d) = p.2 :: dictValues d := rfl

theorem count_values_dictSet_ne (d : PyDict Name) (k : Name)
    (v w : Name) (hw : w ≠ v) :
    (dictValues (dictSet d k v)).count w ≤ (dictValues d).count w := by
  have hvw : ¬ v = w := fun hc => hw hc.symm
  induction d with
  | nil =>
      simp only [dictSet]
      rw [dictValues_cons]
      simp only [List.count_cons, beq_iff_eq]
      simp [hvw, dictValues]
  | cons p d ih =>
      simp only [dictSet]
      by_cases h : p.1 = k
      · rw [if_pos h, dictValues_cons, dictValues_cons]
        simp only [List.count_cons, beq_iff_eq]
        split_ifs <;> omega
      · rw [if_neg h, dictValues_cons, dictValues_cons]
        simp only [List.count_cons, beq_iff_eq]
        split_ifs <;> omega

theorem count_values_dictSet_self (d : PyDict Name) (k : Name)
    (v : Name) :
    (dictValues (dictSet d k v)).count v ≤ (dictValues d).count v + 1 := by
  induction d with
  | nil =>
      simp only [dictSet]
      rw [dictValues_cons]
      simp only [List.count_cons, beq_iff_eq]
      simp [dictValues]
  | cons p d ih =>
      simp only [dictSet]
      by_cases h : p.1 = k
      · rw [if_pos h, dictValues_cons, dictValues_cons]
        simp only [List.count_cons, beq_iff_eq]
        split_ifs <;> omega
      · rw [if_neg h, dictValues_cons, dictValues_cons]
        simp only [List.count_cons, beq_iff_eq]
        split_ifs <;> omega

theorem dlookup_dictOfList_aux {β : Type} (f : Name → β) (ks : List Name)
    (d : PyDict β) (m : Name) :
    dlookup (ks.foldl (fun d n => dictSet d n (f n)) d) m
      = if m ∈ ks then some (f m) else dlookup d m := by
  induction ks generalizing d with
  | nil => simp
  | cons n ks ih =>
      rw [List.foldl_cons, ih]
      by_cases h1 : m ∈ ks
      · simp [h1, List.mem_cons]
      · rw [if_neg h1, dlookup_dictSet]
        by_cases h2 : m = n
        · simp [h2]
        · simp [h2, h1]

theorem dlookup_dictOfList {β : Type} (f : Name → β) (ks : List Name) (m : Name) :
    dlookup (dictOfList f ks) m = if m ∈ ks then some (f m) else none := by
  rw [dictOfList, dlookup_dictOfList_aux, dlookup_nil]

theorem mem_dictOfList_aux {β : Type} (f : Name → β) (ks : List Name) (d : PyDict β)
    (p : Name × β) (hp : p ∈ ks.foldl (fun d n => dictSet d n (f n)) d) :
    (p.2 = f p.1 ∧ p.1 ∈ ks) ∨ p ∈ d := by
  induction ks generalizing d with
  | nil => exact Or.inr hp
  | cons n ks ih =>
      rw [List.foldl_cons] at hp
      rcases ih (dictSet d n (f n)) hp with h | h
      · exact Or.inl ⟨h.1, List.mem_cons_of_mem _ h.2⟩
      · rcases mem_dictSet d n (f n) p h with h' | h'
        · refine Or.inl ⟨?_, ?_⟩
          · rw [h']
          · rw [h']; exact List.mem_cons_self _ _
        · exact Or.inr h'

theorem mem_dictOfList {β : Type} (f : Name → β) (ks : List Name) (p : Name × β)
    (hp : p ∈ dictOfList f ks) : p.2 = f p.1 ∧ p.1 ∈ ks := by
  rcases mem_dictOfList_aux f ks [] p hp with h | h
  · exact h
  · simp at h

/-!  ## Spelling and phase-1 lemmas -/

theorem upperN_length (s : Name) : (upperN s).length = s.length := by
  simp [upperN]

theorem upperN_take (s : Name) (i : Nat) :
    upperN (s.take i) = (upperN s).take i := by
  simp [upperN, List.map_take]

/-- Membership in a name's uppercased spelling list is exactly being a
nonempty case-insensitive prefix of the name. -/
theorem mem_spellings_iff (arg nm : Name) :
    upperN arg ∈ (getSpellings nm).map upperN ↔
      arg ≠ [] ∧ upperN arg <+: upperN nm := by
  constructor
  · intro h
    simp only [getSpellings, List.map_map, List.mem_map, List.mem_range] at h
    rcases h with ⟨k, hk, hek⟩
    simp only [Function.comp] at hek
    rw [upperN_take] at hek
    constructor
    · intro hnil
      rw [hnil] at hek
      have : (List.take (nm.length - k) (upperN nm)).length = 0 := by
        rw [hek]; rfl
      rw [List.length_take, upperN_length] at this
      omega
    · rw [← hek]
      exact List.take_prefix _ _
  · rintro ⟨hne, hpre⟩
    have hlen : arg.length ≤ nm.length := by
      have := hpre.length_le
      rwa [upperN_length, upperN_length] at this
    have hlp : 1 ≤ arg.length := by
      cases arg with
      | nil => exact absurd rfl hne
      | cons c cs => simp
    simp only [getSpellings, List.map_map, List.mem_map, List.mem_range]
    refine ⟨nm.length - arg.length, by omega, ?_⟩
    simp only [Function.comp]
    rw [upperN_take]
    have : nm.length - (nm.length - arg.length) = arg.length := by omega
    rw [this]
    have := List.prefix_iff_eq_take.mp hpre
    rw [upperN_length] at this
    exact this.symm

/-- If some element of `l` satisfies the predicate, `find?` succeeds. -/
theorem find?_isSome_of_mem {α : Type} (p : α → Bool) (l : List α) (a : α)
    (ha : a ∈ l) (hp : p a = true) : ∃ q, l.find? p = some q ∧ p q = true := by
  cases hq : l.find? p with
  | none => exact absurd hp (List.find?_eq_none.mp hq a ha)
  | some q => exact ⟨q, rfl, List.find?_some hq⟩

/-- One phase-1 step, as the `foldl` in `phase1` performs it. -/
theorem phase1_cons (spell : PyDict (List Name)) (key : PyDict Name) (a : Name)
    (t : List Name) :
    phase1 spell key (a :: t) =
      phase1 spell (match findFirstMatch spell a with
        | some name => dictSet key name a
        | none => key) t := rfl

/-- Phase 1 binds each expected name to the LAST actual name (in input
order) whose uppercased form matches one of its spellings first; it
never checks whether the expected name is already assigned. -/
theorem phase1_lookup_lastMatch (spell : PyDict (List Name)) (actual : List Name)
    (key0 : PyDict Name) (n : Name) :
    dlookup (phase1 spell key0 actual) n =
      match (actual.filter (fun a => decide (findFirstMatch spell a = some n))).getLast? with
      | some a => some a
      | none => dlookup key0 n := by
  induction actual generalizing key0 with
  | nil => rfl
  | cons a t ih =>
      rw [phase1_cons]
      cases hm : findFirstMatch spell a with
      | none =>
          have hpred : decide (findFirstMatch spell a = some n) = false := by
            simp [hm]
          simp only [List.filter_cons, hpred, if_neg, Bool.false_eq_true, ite_false]
          exact ih key0
      | some m =>
          by_cases hmn : m = n
          · subst hmn
            have hpred : decide (findFirstMatch spell a = some m) = true := by
              simp [hm]
            simp only [List.filter_cons, hpred, if_pos, ite_true]
            rw [ih (dictSet key0 m a)]
            cases hlt : (t.filter (fun a => decide (findFirstMatch spell a = some m))).getLast? with
            | none =>
                have hnil : t.filter (fun a => decide (findFirstMatch spell a = some m)) = [] := by
                  cases hfl : t.filter (fun a => decide (findFirstMatch spell a = some m)) with
                  | nil => rfl
                  | cons x xs => rw [hfl] at hlt; simp [List.getLast?_cons] at hlt
                rw [hnil]
                simp only [List.getLast?_cons, List.getLast?, Option.getD]
                rw [dlookup_dictSet]
                simp
            | some b =>
                cases hfl : t.filter (fun a => decide (findFirstMatch spell a = some m)) with
                | nil => rw [hfl] at hlt; simp [List.getLast?] at hlt
                | cons x xs =>
                    rw [hfl] at hlt
                    rw [List.getLast?_cons, hlt]
                    simp [Option.getD]
          · have hpred : decide (findFirstMatch spell a = some n) = false := by
              simp only [hm, decide_eq_false_iff_not]
              intro hc
              exact hmn (by injection hc)
            simp only [List.filter_cons, hpred, Bool.false_eq_true, ite_false]
            rw [ih (dictSet key0 m a), dlookup_dictSet,
              if_neg (show ¬ n = m from fun hc => hmn hc.symm)]

theorem getLast?_filter_eq (l : List Name) (x : Name) (hx : x ∈ l) :
    (l.filter (fun a => decide (a = x))).getLast? = some x := by
  have hne : l.filter (fun a => decide (a = x)) ≠ [] := by
    intro h
    have := List.filter_eq_nil_iff.mp h x hx
    simp at this
  rw [List.getLast?_eq_getLast _ hne]
  have hmem := List.getLast_mem hne
  have hval := (List.mem_filter.mp hmem).2
  simp only [decide_eq_true_eq] at hval
  rw [hval]

/-!  ## Claims -/

/-- C10: the claim that a caller definition is immutable is false: the
required list is a shared mutable list, and `StudentObjectMaker.__init__`
appends the reserved type argument to it unconditionally, so
instantiating the same definition a second time does not leave the
required list identical to what it was after the first instantiation. -/
theorem c10_counterexample :
    somInitRequired (somInitRequired ["identifier".data] "_sfc_stype_arg_0".data)
        "_sfc_stype_arg_0".data
      ≠ somInitRequired ["identifier".data] "_sfc_stype_arg_0".data := by decide

/-- C10 (amended): constructing a `StudentObjectMaker` instance appends
the reserved type argument to the definition's shared required list on
every instantiation (so a second instantiation appends it again), while
constructing a `StudentMethodCaller` instance appends `'self'` only when
absent (idempotent). -/
theorem c10_required_mutation (required : List Name) (stypeArg : Name) :
    somInitRequired (somInitRequired required stypeArg) stypeArg
        = required ++ [stypeArg, stypeArg]
    ∧ smcInitRequired (smcInitRequired required) = smcInitRequired required := by
  constructor
  · simp [somInitRequired]
  · have hmem : selfName ∈ smcInitRequired required := by
      by_cases h : selfName ∈ required
      · rw [smcInitRequired, if_pos h]; exact h
      · rw [smcInitRequired, if_neg h]; simp
    rw [smcInitRequired, if_pos hmem]

/-- C3: the claim that phase 1 binds an actual name only to a
still-unassigned expected name is false: processing `["ab", "a"]`
against expected `["ab"]`, the first actual name binds `"ab" ↦ "ab"`,
and the second actual name then REBINDS the already-assigned expected
name (`"ab" ↦ "a"`); moreover a later duplicate of a bound actual name
does not fall through to phase 2 (here: with expected `["a", "ab"]` and
actual `["a", "a"]`, the duplicate `"a"` is dropped entirely and `"ab"`
stays empty, where the claim would have phase 2 assign it). -/
theorem c3_counterexample :
    phase1 (dictOfList getSpellings ["ab".data]) (dictOfList (fun _ => ([] : Name)) ["ab".data])
        ["ab".data] = [("ab".data, "ab".data)]
    ∧ phase1 (dictOfList getSpellings ["ab".data]) (dictOfList (fun _ => ([] : Name)) ["ab".data])
        ["ab".data, "a".data] = [("ab".data, "a".data)]
    ∧ calibrate_args ["ab".data, "a".data] ["ab".data] = some [("ab".data, "a".data)]
    ∧ calibrate_args ["a".data, "a".data] ["a".data, "ab".data]
        = some [("a".data, "a".data), ("ab".data, [])] := by decide

/-- C3 (amended): phase-1 binding is unconditional — each expected name
ends up bound to the LAST actual name in input order whose uppercased
form is one of its spellings and that selects it as its first match
(later matches overwrite earlier ones, assigned or not); and an actual
name that already appears among the key's values after phase 1 is
excluded from phase 2 (`unused_args`) rather than falling through. -/
theorem c3_phase1_last_match_wins :
    (∀ (spell : PyDict (List Name)) (actual : List Name) (key0 : PyDict Name) (n : Name),
      dlookup (phase1 spell key0 actual) n =
        match (actual.filter (fun a => decide (findFirstMatch spell a = some n))).getLast? with
        | some a => some a
        | none => dlookup key0 n)
    ∧ (∀ (actual : List Name) (key : PyDict Name) (arg : Name),
        arg ∈ dictValues key → arg ∉ unusedArgs actual key) := by
  constructor
  · exact phase1_lookup_lastMatch
  · intro actual key arg hv hu
    have := (List.mem_filter.mp hu).2
    simp only [decide_eq_true_eq] at this
    exact this hv

/-- C3 witness: the amended statement evaluated at the counterexample
inputs — the last matching occurrence `"a"` wins for expected `"ab"`,
and the bound duplicate `"a"` is not among the unused args. -/
theorem c3_witness :
    dlookup (phase1 (dictOfList getSpellings ["ab".data])
        (dictOfList (fun _ => ([] : Name)) ["ab".data]) ["ab".data, "a".data]) "ab".data
      = some "a".data
    ∧ "a".data ∉ unusedArgs ["a".data, "a".data] [("a".data, "a".data)] := by
  constructor
  · rw [c3_phase1_last_match_wins.1 (dictOfList getSpellings ["ab".data])
      ["ab".data, "a".data] (dictOfList (fun _ => ([] : Name)) ["ab".data]) "ab".data]
    decide
  · exact c3_phase1_last_match_wins.2 ["a".data, "a".data] [("a".data, "a".data)]
      "a".data (by decide)

/-- C2: the claim that `calibrate_args(A, E)` maps every expected name
to itself whenever `A` is a permutation of `E` (distinct non-empty
names) is false: for `E = A = ["ab", "a"]`, phase 1 first binds
`"ab" ↦ "ab"`, then the actual name `"a"` matches the spelling `"a"` of
the expected name `"ab"` and overwrites that binding, and phase 2 then
assigns the now-unused `"ab"` to the expected name `"a"`; the result
maps `"ab" ↦ "a"` and `"a" ↦ "ab"`, not the identity. -/
theorem c2_counterexample :
    ["ab".data, "a".data].Perm ["ab".data, "a".data]
    ∧ ["ab".data, "a".data].Nodup
    ∧ calibrate_args ["ab".data, "a".data] ["ab".data, "a".data]
        = some [("ab".data, "a".data), ("a".data, "ab".data)]
    ∧ dlookup [("ab".data, "a".data), ("a".data, "ab".data)] "ab".data ≠ some "ab".data := by
  refine ⟨List.Perm.refl _, by decide, by decide, by decide⟩

/-- When no expected name is a case-insensitive prefix of a different
expected name, an actual name that occurs among the expected names
phase-1-matches exactly itself. -/
theorem findFirstMatch_self (expected : List Name) (a : Name)
    (ha : a ∈ expected) (hne : ∀ e ∈ expected, e ≠ [])
    (hpfree : ∀ m ∈ expected, ∀ nm ∈ expected, upperN m <+: upperN nm → m = nm) :
    findFirstMatch (dictOfList getSpellings expected) a = some a := by
  have hlk : dlookup (dictOfList getSpellings expected) a = some (getSpellings a) := by
    rw [dlookup_dictOfList, if_pos ha]
  have hmem := dlookup_mem _ _ _ hlk
  have hpa : (fun p : Name × List Name => decide (upperN a ∈ p.2.map upperN))
      (a, getSpellings a) = true := by
    simp only [decide_eq_true_eq]
    exact (mem_spellings_iff a a).mpr ⟨hne a ha, List.prefix_refl _⟩
  rcases find?_isSome_of_mem (fun p : Name × List Name => decide (upperN a ∈ p.2.map upperN))
      (dictOfList getSpellings expected) (a, getSpellings a) hmem hpa with ⟨q, hq, hpq⟩
  have hqmem := List.mem_of_find?_eq_some hq
  have hqe := mem_dictOfList getSpellings expected q hqmem
  have hin : upperN a ∈ (getSpellings q.1).map upperN := by
    simp only [decide_eq_true_eq] at hpq
    rwa [hqe.1] at hpq
  have hpre := (mem_spellings_iff a q.1).mp hin
  have hq1 : q.1 = a := (hpfree a ha q.1 hqe.2 hpre.2).symm
  rw [findFirstMatch, hq]
  simp [hq1]

/-- C2 (amended): if `A` is a permutation of `E`, all names distinct and
non-empty, and additionally no expected name is a case-insensitive
prefix of a DIFFERENT expected name, then `calibrate_args(A, E)` maps
every expected name to itself.  (The extra prefix-freedom hypothesis is
forced by the counterexample `E = A = ["ab", "a"]`, where phase 1's
unconditional rebinding breaks the identity.) -/
theorem c2_permutation_identity (actual expected : List Name)
    (hperm : actual.Perm expected) (_hnodup : expected.Nodup)
    (hne : ∀ e ∈ expected, e ≠ [])
    (hpfree : ∀ m ∈ expected, ∀ nm ∈ expected, upperN m <+: upperN nm → m = nm) :
    ∃ d, calibrate_args actual expected = some d ∧ ∀ e ∈ expected, dlookup d e = some e := by
  have hffm : ∀ a ∈ actual, findFirstMatch (dictOfList getSpellings expected) a = some a :=
    fun a ha => findFirstMatch_self expected a (hperm.mem_iff.mp ha) hne hpfree
  set spell := dictOfList getSpellings expected with hspell
  set key0 := dictOfList (fun _ => ([] : Name)) expected with hkey0
  set key1 := phase1 spell key0 actual with hkey1
  have hlook : ∀ a ∈ actual, dlookup key1 a = some a := by
    intro a ha
    rw [hkey1, phase1_lookup_lastMatch]
    have hfilter : actual.filter (fun x => decide (findFirstMatch spell x = some a))
        = actual.filter (fun x => decide (x = a)) := by
      apply List.filter_congr
      intro x hx
      rw [hffm x hx]
      simp
    rw [hfilter, getLast?_filter_eq actual a ha]
  have hlookE : ∀ e ∈ expected, dlookup key1 e = some e :=
    fun e he => hlook e (hperm.mem_iff.mpr he)
  have hunused : unusedArgs actual key1 = [] := by
    rw [unusedArgs, List.filter_eq_nil_iff]
    intro a ha
    simp only [decide_eq_true_eq, Decidable.not_not]
    have hm := dlookup_mem _ _ _ (hlook a ha)
    exact List.mem_map_of_mem _ hm
  refine ⟨key1, ?_, hlookE⟩
  show List.foldlM (phase2Step spell) key1 (unusedArgs actual key1) = some key1
  rw [hunused, List.foldlM_nil]
  rfl

/-- C2 witness: a permutation of the distinct, non-empty,
prefix-free names `["row", "column"]` is mapped to the identity. -/
theorem c2_witness :
    ∃ d, calibrate_args ["column".data, "row".data] ["row".data, "column".data] = some d
      ∧ ∀ e ∈ ["row".data, "column".data], dlookup d e = some e :=
  c2_permutation_identity _ _ (by decide) (by decide) (by decide) (by decide)

/-- C8: if an actual name is a nonempty case-insensitive prefix of the
expected name `n` and of no other expected name, phase 1 binds it to
`n` — no similarity scores are consulted — and every other expected
name is left empty. -/
theorem c8_prefix_binds (arg : Name) (expected : List Name) (n : Name)
    (hn : n ∈ expected) (hne : arg ≠ [])
    (hpre : upperN arg <+: upperN n)
    (honly : ∀ m ∈ expected, m ≠ n → ¬ (upperN arg <+: upperN m)) :
    ∃ d, calibrate_args [arg] expected = some d
      ∧ dlookup d n = some arg
      ∧ ∀ m ∈ expected, m ≠ n → dlookup d m = some [] := by
  set spell := dictOfList getSpellings expected with hspell
  set key0 := dictOfList (fun _ => ([] : Name)) expected with hkey0
  have hffm : findFirstMatch spell arg = some n := by
    have hlk : dlookup spell n = some (getSpellings n) := by
      rw [hspell, dlookup_dictOfList, if_pos hn]
    have hmem := dlookup_mem _ _ _ hlk
    have hpn : (fun p : Name × List Name => decide (upperN arg ∈ p.2.map upperN))
        (n, getSpellings n) = true := by
      simp only [decide_eq_true_eq]
      exact (mem_spellings_iff arg n).mpr ⟨hne, hpre⟩
    rcases find?_isSome_of_mem (fun p : Name × List Name => decide (upperN arg ∈ p.2.map upperN))
        spell (n, getSpellings n) hmem hpn with ⟨q, hq, hpq⟩
    have hqmem := List.mem_of_find?_eq_some hq
    have hqe := mem_dictOfList getSpellings expected q (hspell ▸ hqmem)
    have hin : upperN arg ∈ (getSpellings q.1).map upperN := by
      simp only [decide_eq_true_eq] at hpq
      rwa [hqe.1] at hpq
    have hpre' := (mem_spellings_iff arg q.1).mp hin
    have hq1 : q.1 = n := by
      by_contra hc
      exact honly q.1 hqe.2 hc hpre'.2
    rw [findFirstMatch, hq]
    simp [hq1]
  have hkey1 : phase1 spell key0 [arg] = dictSet key0 n arg := by
    rw [phase1_cons, hffm]
    rfl
  have hunused : unusedArgs [arg] (dictSet key0 n arg) = [] := by
    rw [unusedArgs, List.filter_eq_nil_iff]
    intro a ha
    rw [List.mem_singleton.mp ha]
    simp only [decide_eq_true_eq, Decidable.not_not]
    exact self_mem_values_dictSet key0 n arg
  refine ⟨dictSet key0 n arg, ?_, ?_, ?_⟩
  · show List.foldlM (phase2Step spell) (phase1 spell key0 [arg])
        (unusedArgs [arg] (phase1 spell key0 [arg])) = some (dictSet key0 n arg)
    rw [hkey1, hunused, List.foldlM_nil]
    rfl
  · rw [dlookup_dictSet, if_pos rfl]
  · intro m hm hmn
    rw [dlookup_dictSet, if_neg hmn, hkey0, dlookup_dictOfList, if_pos hm]

/-- C8 witness: the spec's own example — actual `["orig"]` against
expected `["origin", "destination"]` binds `origin ↦ "orig"` in phase 1
and leaves `destination` empty. -/
theorem c8_witness :
    ∃ d, calibrate_args ["orig".data] ["origin".data, "destination".data] = some d
      ∧ dlookup d "origin".data = some "orig".data
      ∧ ∀ m ∈ ["origin".data, "destination".data], m ≠ "origin".data →
          dlookup d m = some [] :=
  c8_prefix_binds "orig".data ["origin".data, "destination".data] "origin".data
    (by decide) (by decide) (by decide) (by decide)

/-!  ## Totality of the matcher for non-empty expected names (C6) -/

theorem getSpellings_ne_nil (nm : Name) (h : nm ≠ []) : getSpellings nm ≠ [] := by
  rw [getSpellings]
  intro hc
  have : nm.length = 0 := by
    have := congrArg List.length hc
    simpa using this
  exact h (List.length_eq_zero.mp this)

theorem getBestShot_isSome (word : Name) (opts : List Name) (h : opts ≠ []) :
    ∃ r, getBestShot word opts = some r := by
  cases opts with
  | nil => exact absurd rfl h
  | cons o os => exact ⟨_, rfl⟩

theorem mapM_isSome {α β : Type} (f : α → Option β) (l : List α)
    (h : ∀ x ∈ l, ∃ y, f x = some y) : ∃ ys, l.mapM f = some ys := by
  induction l with
  | nil => exact ⟨[], rfl⟩
  | cons x t ih =>
      rcases h x (List.mem_cons_self _ _) with ⟨y, hy⟩
      rcases ih (fun z hz => h z (List.mem_cons_of_mem _ hz)) with ⟨ys, hys⟩
      refine ⟨y :: ys, ?_⟩
      rw [List.mapM_cons, hy, hys]
      rfl

theorem phase2Step_isSome (spell : PyDict (List Name)) (key : PyDict Name) (arg : Name)
    (h : ∀ p ∈ spell, p.2 ≠ ([] : List Name)) :
    ∃ d, phase2Step spell key arg = some d := by
  rcases mapM_isSome (fun p : Name × List Name => (getBestShot arg p.2).map (fun r => (p.1, r)))
      spell (fun p hp => by
        rcases getBestShot_isSome arg p.2 (h p hp) with ⟨r, hr⟩
        exact ⟨(p.1, r), by dsimp only; rw [hr]; rfl⟩) with ⟨sims, hsims⟩
  cases hfind : (sortDesc sims).find? (fun p => decide (dlookup key p.1 = some [])) with
  | none =>
      refine ⟨key, ?_⟩
      rw [phase2Step, hsims]
      show (match (sortDesc sims).find? (fun p => decide (dlookup key p.1 = some [])) with
        | some p => pure (dictSet key p.1 arg)
        | none => pure key : Option (PyDict Name)) = some key
      rw [hfind]
      rfl
  | some p =>
      refine ⟨dictSet key p.1 arg, ?_⟩
      rw [phase2Step, hsims]
      show (match (sortDesc sims).find? (fun p => decide (dlookup key p.1 = some [])) with
        | some p => pure (dictSet key p.1 arg)
        | none => pure key : Option (PyDict Name)) = some (dictSet key p.1 arg)
      rw [hfind]
      rfl

theorem foldlM_isSome {α β : Type} (f : β → α → Option β) :
    ∀ (l : List α) (acc : β), (∀ b x, x ∈ l → ∃ y, f b x = some y) →
      ∃ r, l.foldlM f acc = some r := by
  intro l
  induction l with
  | nil => exact fun acc _ => ⟨acc, rfl⟩
  | cons x t ih =>
      intro acc h
      rcases h acc x (List.mem_cons_self _ _) with ⟨y, hy⟩
      rcases ih y (fun b z hz => h b z (List.mem_cons_of_mem _ hz)) with ⟨r, hr⟩
      refine ⟨r, ?_⟩
      rw [List.foldlM_cons, hy]
      exact hr

/-- C6: the claim that `calibrate_args` never raises for EVERY actual
and expected name list is false: with an empty string among the expected
names, its spelling list is empty, and `_get_best_shot` then evaluates
`max([])`, which raises `ValueError` (modelled as `none`). -/
theorem c6_counterexample : calibrate_args ["x".data] [([] : Name)] = none := by decide

/-- C6 (amended): `calibrate_args` never raises as long as every
expected name is non-empty (the interface contract — canonical names
are non-empty strings); actual names are unrestricted. -/
theorem c6_matching_never_throws (actual expected : List Name)
    (hne : ∀ e ∈ expected, e ≠ []) :
    ∃ d, calibrate_args actual expected = some d := by
  have hsp : ∀ p ∈ dictOfList getSpellings expected, p.2 ≠ ([] : List Name) := by
    intro p hp
    have he := mem_dictOfList getSpellings expected p hp
    rw [he.1]
    exact getSpellings_ne_nil p.1 (hne p.1 he.2)
  exact foldlM_isSome (phase2Step (dictOfList getSpellings expected)) _ _
    (fun key arg _ => phase2Step_isSome _ key arg hsp)

/-- C6 witness: the amended statement evaluated at a concrete input with
non-empty expected names (one of which only matches by similarity). -/
theorem c6_witness :
    ∃ d, calibrate_args ["qq".data, "row".data] ["row".data, "column".data] = some d :=
  c6_matching_never_throws ["qq".data, "row".data] ["row".data, "column".data] (by decide)

/-!  ## Surplus supplied keywords (C4) -/

theorem mem_invert_aux (t : PyDict Name) (d0 : PyDict Name) (p : Name × Name)
    (hp : p ∈ t.foldl (fun d q => dictSet d q.2 q.1) d0) :
    p ∈ d0 ∨ ∃ q ∈ t, p.1 = q.2 := by
  induction t generalizing d0 with
  | nil => exact Or.inl hp
  | cons q t ih =>
      rw [List.foldl_cons] at hp
      rcases ih (dictSet d0 q.2 q.1) hp with h | ⟨q', hq', he⟩
      · rcases mem_dictSet d0 q.2 q.1 p h with h' | h'
        · exact Or.inr ⟨q, List.mem_cons_self _ _, by rw [h']⟩
        · exact Or.inl h'
      · exact Or.inr ⟨q', List.mem_cons_of_mem _ hq', he⟩

/-- A key absent from the values of `tester_names` has no entry in the
inverted dict `{v: k for k, v in tester_names.items()}`. -/
theorem dlookup_invert_none (t : PyDict Name) (x : Name)
    (hx : x ∉ dictValues t) :
    dlookup (t.foldl (fun d q => dictSet d q.2 q.1) []) x = none := by
  cases hl : dlookup (t.foldl (fun d q => dictSet d q.2 q.1) []) x with
  | none => rfl
  | some v =>
      exfalso
      have hm := dlookup_mem _ _ _ hl
      rcases mem_invert_aux t [] (x, v) hm with h | ⟨q, hq, he⟩
      · simp at h
      · apply hx
        rw [show x = q.2 from he]
        exact List.mem_map_of_mem _ hq

/-- The keyword-resolution loop of `call` (lines 166-169) raises
`KeyError` as soon as any supplied keyword has no entry in the inverted
tester correspondence. -/
theorem resolve_loop_keyError {α : Type} (tester sn' : PyDict Name)
    (kwargs : PyDict (Val α)) (acc : PyDict (Val α))
    (hbad : ∃ p ∈ kwargs, dlookup tester p.1 = none) :
    kwargs.foldlM (resolveStep tester sn') acc = Except.error PyErr.keyError := by
  induction kwargs generalizing acc with
  | nil => rcases hbad with ⟨p, hp, _⟩; simp at hp
  | cons q t ih =>
      rw [List.foldlM_cons]
      cases hq1 : dlookup tester q.1 with
      | none =>
          have hstep : resolveStep tester sn' acc q = Except.error PyErr.keyError := by
            rw [resolveStep, hq1]
          rw [hstep]
          rfl
      | some tn =>
          cases hq2 : dlookup sn' tn with
          | none =>
              have hstep : resolveStep tester sn' acc q = Except.error PyErr.keyError := by
                rw [resolveStep, hq1]
                dsimp only
                rw [hq2]
              rw [hstep]
              rfl
          | some s =>
              have hstep : resolveStep tester sn' acc q
                  = Except.ok (dictSet acc s q.2) := by
                rw [resolveStep, hq1]
                dsimp only
                rw [hq2]
              rw [hstep]
              have hbad' : ∃ p ∈ t, dlookup tester p.1 = none := by
                rcases hbad with ⟨p, hp, hpn⟩
                rcases List.mem_cons.mp hp with h | h
                · rw [h] at hpn
                  rw [hpn] at hq1
                  cases hq1
                · exact ⟨p, h, hpn⟩
              exact ih (dictSet acc s q.2) hbad'

/-- C4: the claim that surplus supplied keywords are silently dropped
and the call proceeds without raising is false: with required `["a"]`
and supplied keywords `{a, zz}`, the matcher drops `"zz"` (all expected
names are taken), the inverted tester correspondence then has no entry
for `"zz"`, and `call` raises `KeyError` instead of invoking the
target. -/
theorem c4_counterexample :
    sfcCall "_sfc_sself_arg_0".data ["a".data] [] ["a".data]
      (funcTarget ["a".data] (fun _ => Except.ok (1 : Nat)))
      [("a".data, Val.data 1), ("zz".data, Val.data 2)] = .error .keyError := by decide

/-- C4 (amended): a supplied keyword that the matcher could not place
(it is absent from the values of the tester correspondence) is dropped
silently inside `calibrate_args`, but `call` then raises `KeyError` when
resolving that keyword: the call never proceeds to invoke the target. -/
theorem c4_surplus_raises {α β : Type} (sselfArg : Name) (required : List Name)
    (possible : PyDict (Val α)) (inspectArgs : List Name)
    (sfn : PyDict (Val α) → Except PyErr β) (kwargs : PyDict (Val α))
    (hself : dlookup kwargs sselfArg = none)
    (sn t : PyDict Name)
    (hsn : calibrate_fn inspectArgs (required ++ dictKeys possible) = some sn)
    (ht : calibrate_args (dictKeys kwargs) required = some t)
    (hsurplus : ∃ p ∈ kwargs, p.1 ∉ dictValues t) :
    sfcCall sselfArg required possible inspectArgs sfn kwargs = .error .keyError := by
  have hbad : ∃ p ∈ kwargs, dlookup (t.foldl (fun d q => dictSet d q.2 q.1) []) p.1 = none := by
    rcases hsurplus with ⟨p, hp, hv⟩
    exact ⟨p, hp, dlookup_invert_none t p.1 hv⟩
  rw [sfcCall, hself, hsn, ht]
  dsimp only
  rw [resolve_loop_keyError (t.foldl (fun d q => dictSet d q.2 q.1) []) sn kwargs [] hbad]

/-- C4 witness: the amended statement at a concrete surplus call —
required `["row"]`, supplied `{row, extra}`: the surplus keyword
`"extra"` is unplaceable and `call` raises `KeyError`. -/
theorem c4_witness :
    sfcCall "_sfc_sself_arg_0".data ["row".data] [] ["row".data]
      (funcTarget ["row".data] (fun _ => Except.ok (1 : Nat)))
      [("row".data, Val.data 3), ("extra".data, Val.data 4)] = .error .keyError :=
  c4_surplus_raises "_sfc_sself_arg_0".data ["row".data] [] ["row".data]
    (funcTarget ["row".data] (fun _ => Except.ok (1 : Nat)))
    [("row".data, Val.data 3), ("extra".data, Val.data 4)]
    (by decide) [("row".data, "row".data)] [("row".data, "row".data)]
    (by decide) (by decide)
    ⟨("extra".data, Val.data 4), by decide, by decide⟩

/-!  ## Exception handling of `make` (C1, C5) -/

/-- C1: the claim that an exception raised by the target type's own
initializer body always propagates out of `make` is false when that
exception is a `TypeError`: `make` catches every `TypeError` (line 298),
with no way to tell a parameter-binding failure from an
application-logic one.  Here the target `Foo(a)` is called with a
perfectly matching keyword set (binding succeeds: `bindOk` holds and the
body runs), the body itself raises `TypeError` during legitimate
execution, and `make` swallows it and returns the Uninstantiated
placeholder instead of propagating. -/
theorem c1_counterexample :
    (let st : Stype Nat := ⟨"Foo".data, ["a".data], fun _ => .error .typeError⟩
     bindOk st.params (dictKeys [("a".data, Val.data 0)]) = true
     ∧ st.body [("a".data, Val.data 0)] = .error .typeError
     ∧ insFn st [("a".data, Val.data 0), (selfName, Val.tyref)] = .error .typeError
     ∧ somMake "_sfc_sself_arg_0".data "_sfc_stype_arg_0".data st
         (["a".data, "_sfc_stype_arg_0".data]) [] [("a".data, Val.data 0)]
         = .ok (.uninst ⟨"Foo".data⟩)) := by
  set_option maxRecDepth 100000 in decide

/-- C1 (amended): `make` catches exactly `TypeError` — whatever its
origin, parameter-binding failure or the initializer body's own raise —
substituting the Uninstantiated placeholder; every other exception
propagates unchanged. -/
theorem c1_make_catches_exactly_typeError {α : Type} (sselfArg stypeArg : Name)
    (st : Stype α) (required : List Name) (possible : PyDict (Val α))
    (kwargs : PyDict (Val α)) (e : PyErr)
    (hcall : sfcCall sselfArg required possible (selfName :: st.params) (insFn st)
      (dictSet kwargs stypeArg Val.tyref) = .error e) :
    somMake sselfArg stypeArg st required possible kwargs
      = if e = .typeError then .ok (.uninst (mkUninst st)) else .error e := by
  rw [somMake, hcall]
  cases e <;> rfl

/-- C1 witness: the amended statement applied to the body-raised
`TypeError` flow of the counterexample — the error is caught and the
placeholder returned. -/
theorem c1_witness :
    somMake "_sfc_sself_arg_0".data "_sfc_stype_arg_0".data
      (⟨"Foo".data, ["a".data], fun _ => .error .typeError⟩ : Stype Nat)
      (["a".data, "_sfc_stype_arg_0".data]) [] [("a".data, Val.data 0)]
      = if PyErr.typeError = PyErr.typeError
        then .ok (.uninst (mkUninst (⟨"Foo".data, ["a".data],
          fun _ => .error .typeError⟩ : Stype Nat)))
        else .error PyErr.typeError :=
  c1_make_catches_exactly_typeError "_sfc_sself_arg_0".data "_sfc_stype_arg_0".data
    (⟨"Foo".data, ["a".data], fun _ => .error .typeError⟩ : Stype Nat)
    (["a".data, "_sfc_stype_arg_0".data]) [] [("a".data, Val.data 0)] PyErr.typeError
    (by set_option maxRecDepth 100000 in decide)

/-!  ## Name extraction from `str(type)` (C5) -/

theorem rfindFrom_eq (hay nd : Name) (t : Nat) :
    ∀ m : Nat, t ≤ m → nd.isPrefixOf (hay.drop t) = true →
      (∀ j, t < j → j ≤ m → nd.isPrefixOf (hay.drop j) = false) →
      rfindFrom hay nd m = (t : Int) := by
  intro m
  induction m with
  | zero =>
      intro ht hocc _
      have ht0 : t = 0 := Nat.le_zero.mp ht
      subst ht0
      rw [rfindFrom]
      rw [List.drop_zero] at hocc
      rw [hocc]
      rfl
  | succ m ih =>
      intro ht hocc habove
      by_cases htm : t = m + 1
      · subst htm
        rw [rfindFrom, hocc]
        rfl
      · have ht' : t ≤ m := by omega
        have hcond : nd.isPrefixOf (hay.drop (m + 1)) = false :=
          habove (m + 1) (by omega) (le_refl _)
        rw [rfindFrom, hcond]
        simp only [Bool.false_eq_true, if_false]
        exact ih ht' hocc (fun j hj1 hj2 => habove j hj1 (by omega))

/-- In `"<class '" ++ q ++ "'>"` with `q` apostrophe-free, the
apostrophes sit exactly at indices `7` and `8 + q.length`. -/
theorem typeStr_apos_pos (q : Name) (hq2 : '\'' ∉ q) (i : Nat)
    (h : ("<class '".data ++ (q ++ "'>".data))[i]? = some '\'') :
    i = 7 ∨ i = 8 + q.length := by
  have hpre : ("<class '".data).length = 8 := rfl
  by_cases h8 : i < 8
  · rw [List.getElem?_append] at h
    rw [if_pos (by rw [hpre]; exact h8)] at h
    interval_cases i
    · exact absurd h (by decide)
    · exact absurd h (by decide)
    · exact absurd h (by decide)
    · exact absurd h (by decide)
    · exact absurd h (by decide)
    · exact absurd h (by decide)
    · exact absurd h (by decide)
    · exact Or.inl rfl
  · rw [List.getElem?_append_right (by rw [hpre]; omega)] at h
    rw [hpre] at h
    by_cases hq8 : i - 8 < q.length
    · rw [List.getElem?_append] at h
      rw [if_pos hq8] at h
      exact absurd (List.getElem?_mem h) hq2
    · rw [List.getElem?_append_right (by omega)] at h
      have hcase : i - 8 - q.length = 0 ∨ i - 8 - q.length = 1 ∨ 2 ≤ i - 8 - q.length := by
        omega
      rcases hcase with hc | hc | hc
      · right; omega
      · rw [hc] at h
        exact absurd h (by decide)
      · rw [List.getElem?_eq_none (by simpa using hc)] at h
        cases h

theorem typeStr_space_pos (q : Name) (hq1 : q ≠ []) (hq3 : ' ' ∉ q)
    (h : ("<class '".data ++ (q ++ "'>".data))[7 + q.length]? = some ' ') : False := by
  have hpre : ("<class '".data).length = 8 := rfl
  have hql : 1 ≤ q.length := by
    cases q with
    | nil => exact absurd rfl hq1
    | cons c cs => simp
  rw [List.getElem?_append_right (by omega)] at h
  rw [hpre] at h
  rw [List.getElem?_append] at h
  rw [if_pos (by omega)] at h
  exact absurd (List.getElem?_mem h) hq3

theorem typeStr_len (q : Name) :
    ("<class '".data ++ (q ++ "'>".data)).length = 10 + q.length := by
  simp [List.length_append]
  omega

theorem drop_eight (q : Name) (j : Nat) :
    ("<class '".data ++ (q ++ "'>".data)).drop (8 + q.length + j)
      = ("'>".data).drop j := by
  have hassoc : "<class '".data ++ (q ++ "'>".data)
      = ("<class '".data ++ q) ++ "'>".data := by rw [List.append_assoc]
  have hlen : ("<class '".data ++ q).length = 8 + q.length := by
    simp [List.length_append]
    omega
  rw [hassoc, ← List.drop_drop, ← hlen, List.drop_left]

theorem rfind_apos (q : Name) (_hq2 : '\'' ∉ q) :
    pyRFind ("<class '".data ++ (q ++ "'>".data)) "'".data
      = ((8 + q.length : Nat) : Int) := by
  rw [pyRFind, typeStr_len]
  refine rfindFrom_eq _ _ (8 + q.length) _ ?_ ?_ ?_
  · omega
  · have := drop_eight q 0
    simp only [Nat.add_zero] at this
    rw [this]
    decide
  · intro j hj1 hj2
    have hcase : j = 8 + q.length + 1 ∨ j = 8 + q.length + 2 := by omega
    rcases hcase with hc | hc
    · rw [hc, drop_eight q 1]
      decide
    · rw [hc, drop_eight q 2]
      decide

theorem rfind_class_marker (q : Name) (hq1 : q ≠ []) (hq2 : '\'' ∉ q) (hq3 : ' ' ∉ q) :
    pyRFind ("<class '".data ++ (q ++ "'>".data)) "class '".data = (1 : Int) := by
  rw [pyRFind, typeStr_len]
  refine rfindFrom_eq _ _ 1 _ ?_ ?_ ?_
  · omega
  · have hdrop : ("<class '".data ++ (q ++ "'>".data)).drop 1
        = "class '".data ++ (q ++ "'>".data) := rfl
    rw [hdrop]
    exact List.isPrefixOf_iff_prefix.mpr (List.prefix_append _ _)
  · intro j hj1 hj2
    by_contra hc
    have hpref : "class '".data <+: ("<class '".data ++ (q ++ "'>".data)).drop j := by
      have := Bool.not_eq_false _ |>.mp hc
      exact List.isPrefixOf_iff_prefix.mp this
    rcases hpref with ⟨r, hr⟩
    have h6 : ("<class '".data ++ (q ++ "'>".data))[j + 6]? = some '\'' := by
      rw [← List.getElem?_drop, ← hr, List.getElem?_append]
      rw [if_pos (by decide)]
      rfl
    have h5 : ("<class '".data ++ (q ++ "'>".data))[j + 5]? = some ' ' := by
      rw [← List.getElem?_drop, ← hr, List.getElem?_append]
      rw [if_pos (by decide)]
      rfl
    rcases typeStr_apos_pos q hq2 (j + 6) h6 with hp | hp
    · omega
    · have hj : j + 5 = 7 + q.length := by omega
      rw [hj] at h5
      exact typeStr_space_pos q hq1 hq3 h5

/-- The name extraction of `_get_uninstantiated_object` recovers the
class's qualified name from `str(type)`, provided the name contains no
apostrophe and no space (true of every Python qualified class name). -/
theorem extractName_typeStr {α : Type} (st : Stype α) (hq1 : st.qualname ≠ [])
    (hq2 : '\'' ∉ st.qualname) (hq3 : ' ' ∉ st.qualname) :
    extractName (typeStr st) = st.qualname := by
  rw [extractName, typeStr, List.append_assoc,
    rfind_class_marker st.qualname hq1 hq2 hq3, rfind_apos st.qualname hq2]
  rw [pySlice]
  have hn : (("<class '".data ++ (st.qualname ++ "'>".data)).length : Int)
      = ((10 + st.qualname.length : Nat) : Int) := by
    rw [typeStr_len]
  rw [hn]
  have hs : ¬ ((1 : Int) + 7 < 0) := by omega
  have he : ¬ (((8 + st.qualname.length : Nat) : Int) < 0) := by
    have : (0 : Int) ≤ ((8 + st.qualname.length : Nat) : Int) := Int.natCast_nonneg _
    omega
  rw [if_neg hs, if_neg he]
  have hs' : min ((1 : Int) + 7) ((10 + st.qualname.length : Nat) : Int) = (8 : Int) := by
    apply min_eq_left
    have : ((8 : Nat) : Int) ≤ ((10 + st.qualname.length : Nat) : Int) := by
      exact_mod_cast Nat.le_add_right 8 (2 + st.qualname.length) |>.trans (by omega)
    omega
  have he' : min (((8 + st.qualname.length : Nat) : Int)) ((10 + st.qualname.length : Nat) : Int)
      = ((8 + st.qualname.length : Nat) : Int) := by
    apply min_eq_left
    exact_mod_cast by omega
  rw [show (1 : Int) + 7 = (8 : Int) from rfl] at hs' ⊢
  rw [hs', he']
  have ht1 : ((8 : Int)).toNat = 8 := rfl
  have ht2 : (((8 + st.qualname.length : Nat) : Int)).toNat = 8 + st.qualname.length :=
    Int.toNat_natCast _
  rw [ht1, ht2]
  have hassoc : "<class '".data ++ (st.qualname ++ "'>".data)
      = ("<class '".data ++ st.qualname) ++ "'>".data := by rw [List.append_assoc]
  rw [hassoc, List.take_left' (by simp [List.length_append]; omega)]
  have : (8 : Nat) = ("<class '".data).length := rfl
  rw [this, List.drop_left]

/-- C5: when the assembled keyword set does not satisfy the
initializer's real signature — the invocation raises `TypeError` — the
constructor variant's `make` returns the Uninstantiated placeholder: it
carries the target type's name extracted from `str(type)`, its
description string contains that name, and it is distinguishable from a
genuine instance by its marker constructor.  (The qualname hypotheses
hold for every Python class name, which contains no apostrophe or
space.) -/
theorem c5_binding_failure_placeholder {α : Type} (sselfArg stypeArg : Name)
    (st : Stype α) (required : List Name) (possible : PyDict (Val α))
    (kwargs : PyDict (Val α))
    (hcall : sfcCall sselfArg required possible (selfName :: st.params) (insFn st)
      (dictSet kwargs stypeArg Val.tyref) = .error .typeError)
    (hq1 : st.qualname ≠ []) (hq2 : '\'' ∉ st.qualname) (hq3 : ' ' ∉ st.qualname) :
    ∃ u : Uninst,
      somMake sselfArg stypeArg st required possible kwargs = .ok (.uninst u)
      ∧ u.name = st.qualname
      ∧ st.qualname <:+: uninstRepr u
      ∧ ∀ a : α, MakeRes.uninst u ≠ MakeRes.obj a := by
  refine ⟨mkUninst st, ?_, ?_, ?_, ?_⟩
  · rw [somMake, hcall]
  · rw [mkUninst]
    exact extractName_typeStr st hq1 hq2 hq3
  · rw [uninstRepr, mkUninst]
    rw [show (⟨extractName (typeStr st)⟩ : Uninst).name = extractName (typeStr st) from rfl]
    rw [extractName_typeStr st hq1 hq2 hq3]
    exact ⟨"<Failure to instantiate ".data, " due to unexpected parameters>".data, rfl⟩
  · intro a h
    cases h

/-- C5 witness: a target `Foo(a, b)` invoked through `make` with only
the keyword `a` — the assembled keyword set misses `b`, binding fails
with `TypeError`, and the placeholder for `"Foo"` comes back, its
description containing `"Foo"`. -/
theorem c5_witness :
    ∃ u : Uninst,
      somMake "_sfc_sself_arg_0".data "_sfc_stype_arg_0".data
        (⟨"Foo".data, ["a".data, "b".data], fun _ => .ok 7⟩ : Stype Nat)
        (["a".data, "b".data, "_sfc_stype_arg_0".data]) [] [("a".data, Val.data 1)]
        = .ok (.uninst u)
      ∧ u.name = "Foo".data
      ∧ "Foo".data <:+: uninstRepr u
      ∧ ∀ a : Nat, MakeRes.uninst u ≠ MakeRes.obj a :=
  c5_binding_failure_placeholder "_sfc_sself_arg_0".data "_sfc_stype_arg_0".data
    (⟨"Foo".data, ["a".data, "b".data], fun _ => .ok 7⟩ : Stype Nat)
    (["a".data, "b".data, "_sfc_stype_arg_0".data]) [] [("a".data, Val.data 1)]
    (by set_option maxRecDepth 400000 in decide) (by decide) (by decide) (by decide)

/-!  ## Injectivity of the correspondence on non-empty values (C7) -/

/-- Every non-empty value occurs at most once among a key dict's values. -/
def ValuesOnce (key : PyDict Name) : Prop :=
  ∀ v : Name, v ≠ [] → (dictValues key).count v ≤ 1

theorem valuesOnce_dictSet (key : PyDict Name) (n a : Name)
    (hinv : ValuesOnce key) (hfresh : a ≠ [] → a ∉ dictValues key) :
    ValuesOnce (dictSet key n a) := by
  intro v hv
  by_cases hva : v = a
  · subst hva
    have h0 : (dictValues key).count v = 0 := List.count_eq_zero.mpr (hfresh hv)
    have := count_values_dictSet_self key n v
    omega
  · have := count_values_dictSet_ne key n a v hva
    exact le_trans this (hinv v hv)

theorem phase1_valuesOnce (spell : PyDict (List Name)) (actual : List Name) :
    ∀ key : PyDict Name, actual.Nodup →
      (∀ a ∈ actual, a ≠ [] → a ∉ dictValues key) → ValuesOnce key →
      ValuesOnce (phase1 spell key actual) := by
  induction actual with
  | nil => exact fun key _ _ hinv => hinv
  | cons a t ih =>
      intro key hnd hfresh hinv
      rw [phase1_cons]
      cases hm : findFirstMatch spell a with
      | none =>
          exact ih key (List.Nodup.of_cons hnd)
            (fun b hb => hfresh b (List.mem_cons_of_mem _ hb)) hinv
      | some n =>
          apply ih (dictSet key n a) (List.Nodup.of_cons hnd)
          · intro b hb hbne hbv
            rcases mem_values_dictSet key n a b hbv with h | h
            · rw [h] at hb
              exact (List.nodup_cons.mp hnd).1 hb
            · exact hfresh b (List.mem_cons_of_mem _ hb) hbne h
          · exact valuesOnce_dictSet key n a hinv
              (fun hane => hfresh a (List.mem_cons_self _ _) hane)

/-- A successful `phase2Step` either leaves the key dict unchanged or
sets exactly one expected name to the processed actual name. -/
theorem phase2Step_cases (spell : PyDict (List Name)) (key : PyDict Name) (arg : Name)
    (d : PyDict Name) (h : phase2Step spell key arg = some d) :
    d = key ∨ ∃ m, d = dictSet key m arg := by
  cases hm : spell.mapM (fun p => (getBestShot arg p.2).map (fun r => (p.1, r))) with
  | none =>
      rw [phase2Step, hm] at h
      have h' : (none : Option (PyDict Name)) = some d := h
      cases h'
  | some sims =>
      have h' : (match (sortDesc sims).find? (fun p => decide (dlookup key p.1 = some [])) with
          | some p => pure (dictSet key p.1 arg)
          | none => pure key : Option (PyDict Name)) = some d := by
        rw [phase2Step, hm] at h
        exact h
      cases hfind : (sortDesc sims).find? (fun p => decide (dlookup key p.1 = some [])) with
      | none =>
          rw [hfind] at h'
          left
          exact (Option.some.inj h').symm
      | some p =>
          rw [hfind] at h'
          right
          exact ⟨p.1, (Option.some.inj h').symm⟩

theorem phase2_fold_valuesOnce (spell : PyDict (List Name)) (args : List Name) :
    ∀ key d : PyDict Name, args.Nodup →
      (∀ a ∈ args, a ≠ [] → a ∉ dictValues key) → ValuesOnce key →
      args.foldlM (phase2Step spell) key = some d → ValuesOnce d := by
  induction args with
  | nil =>
      intro key d _ _ hinv h
      have h' : (some key : Option (PyDict Name)) = some d := h
      rw [← Option.some.inj h']
      exact hinv
  | cons a t ih =>
      intro key d hnd hfresh hinv h
      rw [List.foldlM_cons] at h
      cases hs : phase2Step spell key a with
      | none =>
          rw [hs] at h
          have h' : (none : Option (PyDict Name)) = some d := h
          cases h'
      | some key' =>
          rw [hs] at h
          have h' : t.foldlM (phase2Step spell) key' = some d := h
          rcases phase2Step_cases spell key a key' hs with hk | ⟨m, hk⟩
          · rw [hk] at h'
            exact ih key d (List.Nodup.of_cons hnd)
              (fun b hb => hfresh b (List.mem_cons_of_mem _ hb)) hinv h'
          · rw [hk] at h'
            apply ih (dictSet key m a) d (List.Nodup.of_cons hnd) ?_ ?_ h'
            · intro b hb hbne hbv
              rcases mem_values_dictSet key m a b hbv with hba | hbk
              · rw [hba] at hb
                exact (List.nodup_cons.mp hnd).1 hb
              · exact hfresh b (List.mem_cons_of_mem _ hb) hbne hbk
            · exact valuesOnce_dictSet key m a hinv
                (fun hane => hfresh a (List.mem_cons_self _ _) hane)

/-- Keys are never lost: `dictSet` preserves the presence of every key,
and both phases only ever apply `dictSet`. -/
theorem dlookup_isSome_dictSet {β : Type} (d : PyDict β) (k : Name) (v : β) (n : Name)
    (h : (dlookup d n).isSome = true) : (dlookup (dictSet d k v) n).isSome = true := by
  rw [dlookup_dictSet]
  by_cases hn : n = k
  · rw [if_pos hn]; rfl
  · rw [if_neg hn]; exact h

theorem phase1_keys_preserved (spell : PyDict (List Name)) (actual : List Name)
    (key : PyDict Name) (n : Name) (h : (dlookup key n).isSome = true) :
    (dlookup (phase1 spell key actual) n).isSome = true := by
  rw [phase1]
  refine foldl_preserve (fun key => (dlookup key n).isSome = true) _ _ _ h ?_
  intro a k _ hk
  cases findFirstMatch spell a with
  | none => exact hk
  | some m => exact dlookup_isSome_dictSet k m a n hk

theorem phase2_fold_keys_preserved (spell : PyDict (List Name)) (args : List Name) (n : Name) :
    ∀ key d : PyDict Name, (dlookup key n).isSome = true →
      args.foldlM (phase2Step spell) key = some d → (dlookup d n).isSome = true := by
  induction args with
  | nil =>
      intro key d hk h
      have h' : (some key : Option (PyDict Name)) = some d := h
      rw [← Option.some.inj h']
      exact hk
  | cons a t ih =>
      intro key d hk h
      rw [List.foldlM_cons] at h
      cases hs : phase2Step spell key a with
      | none =>
          rw [hs] at h
          have h' : (none : Option (PyDict Name)) = some d := h
          cases h'
      | some key' =>
          rw [hs] at h
          have h' : t.foldlM (phase2Step spell) key' = some d := h
          rcases phase2Step_cases spell key a key' hs with hkk | ⟨m, hkk⟩
          · rw [hkk] at h'
            exact ih key d hk h'
          · rw [hkk] at h'
            exact ih (dictSet key m a) d (dlookup_isSome_dictSet key m a n hk) h'

theorem two_entries_count (d : PyDict Name) (p q : Name × Name)
    (hp : p ∈ d) (hq : q ∈ d) (hpq : p ≠ q) (hv : p.2 = q.2) :
    2 ≤ (dictValues d).count p.2 := by
  rcases List.append_of_mem hp with ⟨s, t, hst⟩
  subst hst
  have hq' : q ∈ s ∨ q ∈ t := by
    rcases List.mem_append.mp hq with h | h
    · exact Or.inl h
    · rcases List.mem_cons.mp h with h' | h'
      · exact absurd h'.symm hpq
      · exact Or.inr h'
  have hcnt : (dictValues (s ++ p :: t)).count p.2
      = (dictValues s).count p.2 + ((dictValues t).count p.2 + 1) := by
    simp only [dictValues, List.map_append, List.map_cons, List.count_append,
      List.count_cons, beq_self_eq_true, if_true]
  rcases hq' with h | h
  · have : 0 < (dictValues s).count p.2 := by
      rw [hv]
      exact List.count_pos_iff.mpr (List.mem_map_of_mem _ h)
    omega
  · have : 0 < (dictValues t).count p.2 := by
      rw [hv]
      exact List.count_pos_iff.mpr (List.mem_map_of_mem _ h)
    omega

/-- C7: with pairwise-distinct actual and expected names and at least as
many actual as expected names, no actual name is assigned to two
different expected names: any two expected names carrying non-empty
values carry different ones (phase 1 binds each occurrence to at most
one name and overwrites rather than duplicates; phase 2 only assigns
actual names absent from the current values, each to a single
still-empty name).  The correspondence stays total over the expected
names: a losing expected name keeps its empty-string entry. -/
theorem c7_injective_on_nonempty (actual expected : List Name)
    (hA : actual.Nodup) (_hE : expected.Nodup)
    (_hlen : expected.length ≤ actual.length)
    (d : PyDict Name) (hd : calibrate_args actual expected = some d) :
    (∀ n1 n2 v1 v2, n1 ≠ n2 → dlookup d n1 = some v1 → dlookup d n2 = some v2 →
      v1 ≠ [] → v1 ≠ v2)
    ∧ ∀ n ∈ expected, ∃ w, dlookup d n = some w := by
  set spell := dictOfList getSpellings expected with hspell
  set key0 := dictOfList (fun _ => ([] : Name)) expected with hkey0
  set key1 := phase1 spell key0 actual with hkey1
  have hd' : (unusedArgs actual key1).foldlM (phase2Step spell) key1 = some d := hd
  have hval0 : ∀ v ∈ dictValues key0, v = ([] : Name) := by
    intro v hv
    rcases List.mem_map.mp hv with ⟨p, hp, hpv⟩
    rw [← hpv]
    exact (mem_dictOfList _ expected p hp).1
  have hV0 : ValuesOnce key0 := by
    intro v hv
    have : v ∉ dictValues key0 := fun hc => hv (hval0 v hc)
    rw [List.count_eq_zero.mpr this]
    omega
  have hfresh0 : ∀ a ∈ actual, a ≠ [] → a ∉ dictValues key0 := by
    intro a _ hane hc
    exact hane (hval0 a hc)
  have hV1 : ValuesOnce key1 := phase1_valuesOnce spell actual key0 hA hfresh0 hV0
  have hndU : (unusedArgs actual key1).Nodup := hA.filter _
  have hfreshU : ∀ a ∈ unusedArgs actual key1, a ≠ [] → a ∉ dictValues key1 := by
    intro a ha _
    have := (List.mem_filter.mp ha).2
    simpa using this
  have hVd : ValuesOnce d :=
    phase2_fold_valuesOnce spell (unusedArgs actual key1) key1 d hndU hfreshU hV1 hd'
  constructor
  · intro n1 n2 v1 v2 hne h1 h2 hv1 heq
    rw [← heq] at h2
    have hm1 := dlookup_mem d n1 v1 h1
    have hm2 := dlookup_mem d n2 v1 h2
    have hpq : (n1, v1) ≠ (n2, v1) := by
      intro hc
      exact hne (congrArg Prod.fst hc)
    have h2c : 2 ≤ (dictValues d).count v1 :=
      two_entries_count d (n1, v1) (n2, v1) hm1 hm2 hpq rfl
    have := hVd v1 hv1
    omega
  · intro n hn
    have hk0 : (dlookup key0 n).isSome = true := by
      rw [hkey0, dlookup_dictOfList, if_pos hn]
      rfl
    have hk1 : (dlookup key1 n).isSome = true := phase1_keys_preserved spell actual key0 n hk0
    have hkd : (dlookup d n).isSome = true :=
      phase2_fold_keys_preserved spell (unusedArgs actual key1) n key1 d hk1 hd'
    exact Option.isSome_iff_exists.mp hkd

/-- C7 witness: the concrete run `calibrate_args ["ab", "a"] ["ab", "a"]`
(two distinct non-empty values): its non-empty values are pairwise
distinct across distinct expected names and every expected name has an
entry. -/
theorem c7_witness :
    (∀ n1 n2 v1 v2, n1 ≠ n2 →
        dlookup [("ab".data, "a".data), ("a".data, "ab".data)] n1 = some v1 →
        dlookup [("ab".data, "a".data), ("a".data, "ab".data)] n2 = some v2 →
        v1 ≠ [] → v1 ≠ v2)
    ∧ ∀ n ∈ ["ab".data, "a".data],
        ∃ w, dlookup [("ab".data, "a".data), ("a".data, "ab".data)] n = some w :=
  c7_injective_on_nonempty ["ab".data, "a".data] ["ab".data, "a".data]
    (by decide) (by decide) (by decide)
    [("ab".data, "a".data), ("a".data, "ab".data)] (by decide)

/-!  ## Stability of the phase-2 sort and the tie-break (C9) -/

theorem insertDesc_split (x : Name × Frac) (l : List (Name × Frac)) :
    ∃ l1 l2, l = l1 ++ l2 ∧ insertDesc x l = l1 ++ x :: l2
      ∧ ∀ z ∈ l1, fracLe z.2 x.2 = false := by
  induction l with
  | nil => exact ⟨[], [], rfl, rfl, by simp⟩
  | cons y ys ih =>
      by_cases h : fracLe y.2 x.2 = true
      · refine ⟨[], y :: ys, rfl, ?_, by simp⟩
        rw [insertDesc, if_pos h]
        rfl
      · rcases ih with ⟨l1, l2, hl, hi, hz⟩
        refine ⟨y :: l1, l2, by rw [List.cons_append, ← hl], ?_, ?_⟩
        · rw [insertDesc, if_neg h, hi]
          rfl
        · intro z hz'
          rcases List.mem_cons.mp hz' with h' | h'
          · rw [h']
            exact Bool.not_eq_true _ |>.mp h
          · exact hz z h'

theorem mem_insertDesc (x z : Name × Frac) (l : List (Name × Frac)) :
    z ∈ insertDesc x l ↔ z = x ∨ z ∈ l := by
  rcases insertDesc_split x l with ⟨l1, l2, hl, hi, _⟩
  rw [hi, hl]
  simp [List.mem_append, List.mem_cons]
  tauto

theorem insertDesc_perm (x : Name × Frac) (l : List (Name × Frac)) :
    (insertDesc x l).Perm (x :: l) := by
  induction l with
  | nil => exact List.Perm.refl _
  | cons y ys ih =>
      rw [insertDesc]
      by_cases h : fracLe y.2 x.2 = true
      · rw [if_pos h]
      · rw [if_neg h]
        exact (ih.cons y).trans (List.Perm.swap x y ys)

theorem sortDesc_perm (l : List (Name × Frac)) : (sortDesc l).Perm l := by
  induction l with
  | nil => exact List.Perm.refl _
  | cons x t ih =>
      rw [sortDesc]
      exact (insertDesc_perm x (sortDesc t)).trans (ih.cons x)

theorem sublist_insert_middle (l l1 l2 : List (Name × Frac)) (b : Name × Frac)
    (h : l.Sublist (l1 ++ l2)) : l.Sublist (l1 ++ b :: l2) :=
  h.trans ((List.Sublist.refl l1).append (List.sublist_cons_self b l2))

/-- Stability of the descending insertion sort: a pair of elements whose
second component does not increase keeps its relative order. -/
theorem sortDesc_stable (x y : Name × Frac) (hle : fracLe y.2 x.2 = true) :
    ∀ l : List (Name × Frac), [x, y].Sublist l → [x, y].Sublist (sortDesc l) := by
  intro l
  induction l with
  | nil => intro h; cases h
  | cons a t ih =>
      intro h
      rw [sortDesc]
      cases h with
      | cons _ h' =>
          rcases insertDesc_split a (sortDesc t) with ⟨l1, l2, hl, hi, _⟩
          rw [hi]
          exact sublist_insert_middle _ l1 l2 a (hl ▸ ih h')
      | cons₂ _ h' =>
          have hy : y ∈ sortDesc t := by
            have : y ∈ t := List.singleton_sublist.mp h'
            exact ((sortDesc_perm t).mem_iff).mpr this
          rcases insertDesc_split x (sortDesc t) with ⟨l1, l2, hl, hi, hz⟩
          rw [hi]
          have hy2 : y ∈ l2 := by
            rw [hl] at hy
            rcases List.mem_append.mp hy with h1 | h2
            · exact absurd hle (by rw [hz y h1]; simp)
            · exact h2
          have : ([] ++ [x, y]).Sublist (l1 ++ x :: l2) :=
            List.Sublist.append (List.nil_sublist l1)
              ((List.singleton_sublist.mpr hy2).cons₂ x)
          simpa using this

/-- A sublist pair yields a split with the first element exposed and the
second strictly after it. -/
theorem sublist_pair_split (x y : Name × Frac) :
    ∀ l : List (Name × Frac), [x, y].Sublist l →
      ∃ u1 u2, l = u1 ++ x :: u2 ∧ y ∈ u2 := by
  intro l
  induction l with
  | nil => intro h; cases h
  | cons a t ih =>
      intro h
      cases h with
      | cons _ h' =>
          rcases ih h' with ⟨u1, u2, hu, hy⟩
          exact ⟨a :: u1, u2, by rw [hu]; rfl, hy⟩
      | cons₂ _ h' =>
          exact ⟨[], t, rfl, List.singleton_sublist.mp h'⟩

theorem find?_split (pred : Name × Frac → Bool) (x : Name × Frac)
    (hx : pred x = true) :
    ∀ u1 u2 : List (Name × Frac),
      ∃ q, (u1 ++ x :: u2).find? pred = some q ∧ (q ∈ u1 ∨ q = x) := by
  intro u1
  induction u1 with
  | nil =>
      intro u2
      exact ⟨x, List.find?_cons_of_pos u2 hx, Or.inr rfl⟩
  | cons a u1' ih =>
      intro u2
      by_cases ha : pred a = true
      · exact ⟨a, List.find?_cons_of_pos _ ha, Or.inl (List.mem_cons_self _ _)⟩
      · rcases ih u2 with ⟨q, hq, hq'⟩
        refine ⟨q, ?_, ?_⟩
        · rw [List.cons_append, List.find?_cons_of_neg _ ha]
          exact hq
        · rcases hq' with h | h
          · exact Or.inl (List.mem_cons_of_mem _ h)
          · exact Or.inr h

theorem mapM_fst_eq (arg : Name) :
    ∀ (spell : PyDict (List Name)) (ys : List (Name × Frac)),
      spell.mapM (fun p => (getBestShot arg p.2).map (fun r => (p.1, r))) = some ys →
      ys.map (·.1) = spell.map (·.1) := by
  intro spell
  induction spell with
  | nil =>
      intro ys h
      have h' : (some [] : Option (List (Name × Frac))) = some ys := h
      rw [← Option.some.inj h']
      rfl
  | cons p t ih =>
      intro ys h
      rw [List.mapM_cons] at h
      cases hg : getBestShot arg p.2 with
      | none =>
          rw [hg] at h
          have h' : (none : Option (List (Name × Frac))) = some ys := h
          cases h'
      | some r =>
          rw [hg] at h
          cases ht : t.mapM (fun p => (getBestShot arg p.2).map (fun r => (p.1, r))) with
          | none =>
              rw [ht] at h
              have h' : (none : Option (List (Name × Frac))) = some ys := h
              cases h'
          | some zs =>
              rw [ht] at h
              have h' : (some ((p.1, r) :: zs) : Option (List (Name × Frac))) = some ys := h
              rw [← Option.some.inj h']
              simp only [List.map_cons]
              rw [ih zs ht]

theorem mapM_append_split (arg : Name) :
    ∀ (l1 l2 : PyDict (List Name)) (ys : List (Name × Frac)),
      (l1 ++ l2).mapM (fun p => (getBestShot arg p.2).map (fun r => (p.1, r))) = some ys →
      ∃ ys1 ys2, ys = ys1 ++ ys2
        ∧ l1.mapM (fun p => (getBestShot arg p.2).map (fun r => (p.1, r))) = some ys1
        ∧ l2.mapM (fun p => (getBestShot arg p.2).map (fun r => (p.1, r))) = some ys2 := by
  intro l1
  induction l1 with
  | nil => exact fun l2 ys h => ⟨[], ys, rfl, rfl, h⟩
  | cons p t ih =>
      intro l2 ys h
      rw [List.cons_append, List.mapM_cons] at h
      cases hg : getBestShot arg p.2 with
      | none =>
          rw [hg] at h
          have h' : (none : Option (List (Name × Frac))) = some ys := h
          cases h'
      | some r =>
          rw [hg] at h
          cases ht : (t ++ l2).mapM (fun p => (getBestShot arg p.2).map (fun r => (p.1, r))) with
          | none =>
              rw [ht] at h
              have h' : (none : Option (List (Name × Frac))) = some ys := h
              cases h'
          | some zs =>
              rw [ht] at h
              have h' : (some ((p.1, r) :: zs) : Option (List (Name × Frac))) = some ys := h
              rcases ih l2 zs ht with ⟨ys1, ys2, hz, h1, h2⟩
              refine ⟨(p.1, r) :: ys1, ys2, ?_, ?_, h2⟩
              · rw [← Option.some.inj h', hz]
                rfl
              · rw [List.mapM_cons, hg, h1]
                rfl

theorem mapM_cons_split (arg : Name) (p : Name × List Name) (t : PyDict (List Name))
    (ys : List (Name × Frac))
    (h : (p :: t).mapM (fun p => (getBestShot arg p.2).map (fun r => (p.1, r))) = some ys) :
    ∃ r ys', ys = (p.1, r) :: ys' ∧ getBestShot arg p.2 = some r
      ∧ t.mapM (fun p => (getBestShot arg p.2).map (fun r => (p.1, r))) = some ys' := by
  rw [List.mapM_cons] at h
  cases hg : getBestShot arg p.2 with
  | none =>
      rw [hg] at h
      have h' : (none : Option (List (Name × Frac))) = some ys := h
      cases h'
  | some r =>
      rw [hg] at h
      cases ht : t.mapM (fun p => (getBestShot arg p.2).map (fun r => (p.1, r))) with
      | none =>
          rw [ht] at h
          have h' : (none : Option (List (Name × Frac))) = some ys := h
          cases h'
      | some zs =>
          rw [ht] at h
          have h' : (some ((p.1, r) :: zs) : Option (List (Name × Frac))) = some ys := h
          exact ⟨r, zs, (Option.some.inj h').symm, rfl, rfl⟩

/-- C9: in the phase-2 similarity fallback, when the expected name `n1`
comes before `n2` in expected-name iteration order, their maximum
similarity scores to the unmatched actual name are equal, and `n1` is
still unassigned, then the stable descending sort keeps `n1` ahead of
`n2`, so the actual name is never assigned to `n2`: the step assigns it
to some name other than `n2` (to `n1`, unless an even earlier
still-empty name precedes it in the sorted order), leaving `n2`'s entry
untouched.  Earlier-declared expected names win ties. -/
theorem c9_tiebreak_earlier_wins (spell1 spell2 spell3 : PyDict (List Name))
    (n1 n2 : Name) (sp1 sp2 : List Name) (key : PyDict Name) (arg : Name)
    (r1 r2 : Frac) (sims : List (Name × Frac))
    (hnd : (((spell1 ++ ((n1, sp1) :: (spell2 ++ ((n2, sp2) :: spell3)))).map (·.1)).Nodup))
    (h1 : getBestShot arg sp1 = some r1)
    (h2 : getBestShot arg sp2 = some r2)
    (heq : fracEq r1 r2)
    (hk1 : dlookup key n1 = some [])
    (hsims : (spell1 ++ ((n1, sp1) :: (spell2 ++ ((n2, sp2) :: spell3)))).mapM
      (fun p => (getBestShot arg p.2).map (fun r => (p.1, r))) = some sims) :
    ∃ m, m ≠ n2
      ∧ phase2Step (spell1 ++ ((n1, sp1) :: (spell2 ++ ((n2, sp2) :: spell3)))) key arg
          = some (dictSet key m arg)
      ∧ dlookup (dictSet key m arg) n2 = dlookup key n2 := by
  rcases mapM_append_split arg spell1 _ sims hsims with ⟨s1, rest1, hsplit1, _hm1, hrest1⟩
  rcases mapM_cons_split arg (n1, sp1) _ rest1 hrest1 with ⟨r1', rest2, hsplit2, hg1, hrest2⟩
  rcases mapM_append_split arg spell2 _ rest2 hrest2 with ⟨s2, rest3, hsplit3, _hm2, hrest3⟩
  rcases mapM_cons_split arg (n2, sp2) _ rest3 hrest3 with ⟨r2', rest4, hsplit4, hg2, _hrest4⟩
  have hg1' : getBestShot arg sp1 = some r1' := hg1
  have hg2' : getBestShot arg sp2 = some r2' := hg2
  have hr1 : r1' = r1 := Option.some.inj (hg1'.symm.trans h1)
  have hr2 : r2' = r2 := Option.some.inj (hg2'.symm.trans h2)
  have hsplit2' : rest1 = (n1, r1) :: rest2 := by
    rw [← hr1]
    exact hsplit2
  have hsplit4' : rest3 = (n2, r2) :: rest4 := by
    rw [← hr2]
    exact hsplit4
  have hs : sims = s1 ++ ((n1, r1) :: (s2 ++ ((n2, r2) :: rest4))) := by
    rw [hsplit1, hsplit2', hsplit3, hsplit4']
  have hxy : [(n1, r1), (n2, r2)].Sublist sims := by
    rw [hs]
    have hy : [(n2, r2)].Sublist (s2 ++ ((n2, r2) :: rest4)) :=
      List.singleton_sublist.mpr (by simp)
    have h' : ([] ++ [(n1, r1), (n2, r2)]).Sublist
        (s1 ++ ((n1, r1) :: (s2 ++ ((n2, r2) :: rest4)))) :=
      List.Sublist.append (List.nil_sublist s1) (hy.cons₂ (n1, r1))
    simp only [List.nil_append] at h'
    exact h'
  have hle : fracLe ((n2, r2) : Name × Frac).2 ((n1, r1) : Name × Frac).2 = true := by
    show fracLe r2 r1 = true
    rw [fracLe]
    exact decide_eq_true (le_of_eq heq.symm)
  have hstab : [(n1, r1), (n2, r2)].Sublist (sortDesc sims) :=
    sortDesc_stable (n1, r1) (n2, r2) hle sims hxy
  rcases sublist_pair_split (n1, r1) (n2, r2) (sortDesc sims) hstab with ⟨u1, u2, hsorted, hyu2⟩
  have hpx : (fun p : Name × Frac => decide (dlookup key p.1 = some [])) (n1, r1) = true := by
    simp [hk1]
  rcases find?_split (fun p : Name × Frac => decide (dlookup key p.1 = some []))
      (n1, r1) hpx u1 u2 with ⟨q, hfq, hq'⟩
  have hfq' : (sortDesc sims).find? (fun p : Name × Frac => decide (dlookup key p.1 = some []))
      = some q := by rw [hsorted]; exact hfq
  have hfst : sims.map (·.1)
      = (spell1 ++ ((n1, sp1) :: (spell2 ++ ((n2, sp2) :: spell3)))).map (·.1) :=
    mapM_fst_eq arg _ sims hsims
  have hnd_sims : (sims.map (·.1)).Nodup := by rw [hfst]; exact hnd
  have hnd_sorted : ((sortDesc sims).map (·.1)).Nodup :=
    (((sortDesc_perm sims).map (·.1)).nodup_iff).mpr hnd_sims
  have hnd_sorted' : ((u1.map (·.1)) ++ (n1 :: u2.map (·.1))).Nodup := by
    rw [hsorted] at hnd_sorted
    simpa [List.map_append, List.map_cons] using hnd_sorted
  have hn2mem : n2 ∈ u2.map (·.1) := by
    exact List.mem_map.mpr ⟨(n2, r2), hyu2, rfl⟩
  rcases List.pairwise_append.mp hnd_sorted' with ⟨_hA, hB, hAB⟩
  have hq1ne : q.1 ≠ n2 := by
    rcases hq' with h | h
    · exact hAB q.1 (List.mem_map.mpr ⟨q, h, rfl⟩) n2 (List.mem_cons_of_mem _ hn2mem)
    · rw [h]
      exact (List.pairwise_cons.mp hB).1 n2 hn2mem
  refine ⟨q.1, hq1ne, ?_, ?_⟩
  · rw [phase2Step, hsims]
    show (match (sortDesc sims).find?
        (fun p : Name × Frac => decide (dlookup key p.1 = some [])) with
      | some p => pure (dictSet key p.1 arg)
      | none => pure key : Option (PyDict Name)) = some (dictSet key q.1 arg)
    rw [hfq']
    rfl
  · rw [dlookup_dictSet, if_neg (fun hc => hq1ne hc.symm)]

/-- C9 witness: expected names `ax` (earlier) and `ay` (later), both
still unassigned, score equally (`0`) against the unmatched actual name
`zz`; the step assigns `zz` to `ax`, leaving `ay` untouched. -/
theorem c9_witness :
    ∃ m, m ≠ "ay".data
      ∧ phase2Step ([] ++ (("ax".data, getSpellings "ax".data)
            :: ([] ++ (("ay".data, getSpellings "ay".data) :: []))))
          [("ax".data, []), ("ay".data, [])] "zz".data
          = some (dictSet [("ax".data, []), ("ay".data, [])] m "zz".data)
      ∧ dlookup (dictSet [("ax".data, []), ("ay".data, [])] m "zz".data) "ay".data
          = dlookup [("ax".data, []), ("ay".data, [])] "ay".data :=
  c9_tiebreak_earlier_wins [] [] [] "ax".data "ay".data
    (getSpellings "ax".data) (getSpellings "ay".data)
    [("ax".data, []), ("ay".data, [])] "zz".data
    (0, 4) (0, 4) [(("ax".data : Name), ((0, 4) : Frac)), (("ay".data : Name), ((0, 4) : Frac))]
    (by decide) (by decide) (by decide) (by decide) (by decide) (by decide)
